import Mathlib

/-!
Shallow embedding of the timing-correlation and critical-path engine of
`cargo-goodtimes` (files `src/model.rs`, `src/cargo_ops/build.rs`,
`src/cargo_ops/metadata.rs`).  `f64` values are modelled as rationals;
Rust `HashMap`s whose iteration order matters are modelled as association
lists whose list order stands for the (arbitrary) iteration order, and the
unbounded recursion of `compute_critical_path::longest` is modelled with an
explicit fuel parameter, `none` standing for non-termination.
-/

namespace Goodtimes

/-- Model of `CrateId` (model.rs): a newtype over `String`; modelled as `String`. -/
abbrev CrateId := String

/-- Model of `CrateNode` (model.rs), with `Milliseconds` (an `f64` newtype) as `ℚ`. -/
structure CrateNode where
  id : CrateId
  name : String
  version : String
  is_workspace_member : Bool
  duration_ms : Option ℚ
  start_ms : Option ℚ
  fresh : Bool
  features : List String
deriving DecidableEq, Repr

/-- Model of `DepEdge` (model.rs). -/
structure DepEdge where
  «from» : CrateId
  «to» : CrateId
  dep_kinds : List String
deriving DecidableEq, Repr

/-- Model of `BuildGraph` (model.rs).  Its `nodes` is a `HashMap<CrateId, CrateNode>`,
modelled as an association list whose order is the map's iteration order. -/
structure BuildGraph where
  nodes : List (CrateId × CrateNode)
  edges : List DepEdge
  roots : List CrateId
  critical_path : List CrateId
deriving DecidableEq, Repr

/-- The two mutable maps of `compute_critical_path` (build.rs):
`cost: HashMap<CrateId, f64>` and `next_on_path: HashMap<CrateId, CrateId>`.
Both are only inserted into at keys not yet present, so cons-lists with
`List.lookup` model them faithfully. -/
structure CPState where
  cost : List (CrateId × ℚ)
  next_on_path : List (CrateId × CrateId)
deriving DecidableEq, Repr

/-- Model of `nodes.get(id).and_then(|n| n.duration_ms).unwrap_or(0.0)` (build.rs). -/
def durOf (nodes : List (CrateId × CrateNode)) (id : CrateId) : ℚ :=
  ((nodes.lookup id).bind (fun n => n.duration_ms)).getD 0

/-- The `for dep_id in deps` loop body of `longest` (build.rs):
fold over the dependents, keeping the best (strictly greater) cost and the
child that achieved it; `rec` is the recursive call at one fuel less. -/
def childLoopAux (rec : CrateId → CPState → Option (ℚ × CPState)) :
    List CrateId → ℚ → Option CrateId → CPState → Option (ℚ × Option CrateId × CPState)
  | [], bc, bch, s => some (bc, bch, s)
  | d :: ds, bc, bch, s =>
    match rec d s with
    | none => none
    | some (c, s1) =>
      if bc < c then childLoopAux rec ds c (some d) s1
      else childLoopAux rec ds bc bch s1

/-- The `if let Some(child) = best_child` insertion into `next_on_path`. -/
def nextUpdate (id : CrateId) (bch : Option CrateId)
    (next : List (CrateId × CrateId)) : List (CrateId × CrateId) :=
  match bch with
  | some ch => (id, ch) :: next
  | none => next

/-- Model of `longest` (build.rs), fuelled: `none` models non-termination of the
unbounded Rust recursion.  The memo lookup happens on entry; the memo entry
is written only after all recursive calls return, exactly as in the source. -/
def longestF (nodes : List (CrateId × CrateNode)) (dep : CrateId → List CrateId) :
    Nat → CrateId → CPState → Option (ℚ × CPState)
  | 0, _, _ => none
  | fuel + 1, id, s =>
    match s.cost.lookup id with
    | some c => some (c, s)
    | none =>
      let self_dur := durOf nodes id
      match childLoopAux (longestF nodes dep fuel) (dep id) 0 none s with
      | none => none
      | some (bc, bch, s1) =>
        let total := self_dur + bc
        some (total, ⟨(id, total) :: s1.cost, nextUpdate id bch s1.next_on_path⟩)

/-- Reverse adjacency (build.rs): `dependents.entry(&edge.to).push(&edge.from)`
iterated over `graph.edges` in order, so the dependents of `id` are the
`from` fields of the edges whose `to` is `id`, in edge order. -/
def dependentsOf (g : BuildGraph) (id : CrateId) : List CrateId :=
  (g.edges.filter (fun e => e.«to» == id)).map (fun e => e.«from»)

/-- The `for id in &all_ids { longest(...) }` driver loop (build.rs). -/
def runAll (nodes : List (CrateId × CrateNode)) (dep : CrateId → List CrateId)
    (fuel : Nat) : List CrateId → CPState → Option CPState
  | [], s => some s
  | id :: ids, s =>
    match longestF nodes dep fuel id s with
    | none => none
    | some (_, s1) => runAll nodes dep fuel ids s1

/-- Model of `f64::partial_cmp` on the (finite) cost values. -/
def cmpQ (x y : ℚ) : Ordering :=
  if x < y then .lt else if y < x then .gt else .eq

/-- Rust `Iterator::max_by`: `none` on an empty iterator, otherwise the
last element among those attaining the maximum (the reduce keeps the
accumulator only when it compares strictly greater). -/
def rustMaxBy (cmp : α → α → Ordering) : List α → Option α
  | [] => none
  | x :: xs => some (xs.foldl (fun a y => if cmp a y = .gt then a else y) x)

/-- Model of `cost.get(id).unwrap_or(&0.0)` used by the start-node comparator. -/
def costOrZero (s : CPState) (id : CrateId) : ℚ :=
  (s.cost.lookup id).getD 0

/-- The final `loop { path.push(cur); ... }` walk of `compute_critical_path`
(build.rs), fuelled. -/
def walkF (next : List (CrateId × CrateId)) : Nat → CrateId → Option (List CrateId)
  | 0, _ => none
  | fuel + 1, cur =>
    match next.lookup cur with
    | none => some [cur]
    | some nx => (walkF next fuel nx).map (fun p => cur :: p)

/-- Model of `compute_critical_path` (build.rs) up to the final field write: returns
the final memo state and the computed path.  The node-map iteration order is
the order of `g.nodes`. -/
def criticalPathDataF (fuel : Nat) (g : BuildGraph) : Option (CPState × List CrateId) :=
  let dep := dependentsOf g
  let all_ids := g.nodes.map (fun p => p.1)
  match runAll g.nodes dep fuel all_ids ⟨[], []⟩ with
  | none => none
  | some s =>
    let has_deps := g.edges.map (fun e => e.«from»)
    let leaves := all_ids.filter (fun id => !(has_deps.contains id))
    match rustMaxBy (fun a b => cmpQ (costOrZero s a) (costOrZero s b)) (leaves ++ all_ids) with
    | none => some (s, [])
    | some st => (walkF s.next_on_path fuel st).map (fun p => (s, p))

/-- Model of `compute_critical_path` (build.rs): writes the path into the graph. -/
def computeCriticalPathF (fuel : Nat) (g : BuildGraph) : Option BuildGraph :=
  (criticalPathDataF fuel g).map (fun sp => { g with critical_path := sp.2 })

/-! ## Timing reconciler (build.rs, `UnitTiming`, `apply_timings`, `parse_unit_data`) -/

/-- Model of `UnitTiming` (build.rs): one row of the embedded UNIT_DATA block. -/
structure UnitTiming where
  name : String
  version : String
  target : String
  start : ℚ
  duration : ℚ
deriving DecidableEq, Repr

/-- Model of `f64::MAX` (the exact integer 2^1024 - 2^971, written as a numeral so
that kernel evaluation avoids unfolding the exponentiation), the initial
accumulator of the start-minimum fold. -/
def f64MAX : ℚ :=
  179769313486231570814527423731704356798070567525844996598917476803157260780028538760589558632766878171540458953514382464234321326889464182768467546703537516986049910576551282076245490090389328944075868508455133942304583236903222948165808559332123348274797826204144723168738177180919299881250404026184124858368

abbrev TimingKey := String × String

/-- Rust `str::find`: index of the first occurrence of `needle` in `hay`. -/
def findSub : List Char → List Char → Option Nat
  | [], needle => if needle.isEmpty then some 0 else none
  | c :: rest, needle =>
    if needle.isPrefixOf (c :: rest) then some 0
    else (findSub rest needle).map (· + 1)

/-- Rust `str::contains`. -/
def containsSub (hay needle : List Char) : Bool :=
  (findSub hay needle).isSome

/-- The `entry(key).or_insert((f64::MAX, 0.0))` update of `apply_timings`:
`e.0 = e.0.min(start); e.1 += duration`.  The map is only read back by key,
so shadowing the old entry models `HashMap` exactly. -/
def upsert (m : List (TimingKey × (ℚ × ℚ))) (k : TimingKey) (st dur : ℚ) :
    List (TimingKey × (ℚ × ℚ)) :=
  let e := (m.lookup k).getD (f64MAX, 0)
  (k, (min e.1 st, e.2 + dur)) :: m

/-- The `"build script"` pattern of `apply_timings`. -/
def buildScriptPat : List Char := "build script".toList

/-- The `all_timings` update of the aggregation loop (build.rs): every unit
contributes. -/
def stepAll (m : List (TimingKey × (ℚ × ℚ))) (u : UnitTiming) :
    List (TimingKey × (ℚ × ℚ)) :=
  upsert m (u.name, u.version) u.start u.duration

/-- The `lib_timings` update of the aggregation loop (build.rs): only units
whose target does not contain `"build script"` contribute. -/
def stepLib (m : List (TimingKey × (ℚ × ℚ))) (u : UnitTiming) :
    List (TimingKey × (ℚ × ℚ)) :=
  if containsSub u.target.toList buildScriptPat then m
  else upsert m (u.name, u.version) u.start u.duration

/-- The aggregation loop of `apply_timings` (build.rs): first component is
`all_timings`, second is `lib_timings` (non-build-script units only). -/
def buildTimings (units : List UnitTiming) :
    List (TimingKey × (ℚ × ℚ)) × List (TimingKey × (ℚ × ℚ)) :=
  units.foldl (fun ms u => (stepAll ms.1 u, stepLib ms.2 u)) ([], [])

/-- The report rows grouped under one `(name, version)` key. -/
def unitsFor (units : List UnitTiming) (key : TimingKey) : List UnitTiming :=
  units.filter (fun u => (u.name, u.version) == key)

/-- The report rows whose target label is not a build script. -/
def nonBS (units : List UnitTiming) : List UnitTiming :=
  units.filter (fun u => !containsSub u.target.toList buildScriptPat)

/-- One `(min start, sum duration)` accumulation step. -/
def aggStep (e : ℚ × ℚ) (u : UnitTiming) : ℚ × ℚ :=
  (min e.1 u.start, e.2 + u.duration)

/-- Minimum of the start offsets of a row group (`f64::MAX` seed). -/
def minStart (l : List UnitTiming) : ℚ :=
  l.foldl (fun x u => min x u.start) f64MAX

/-- Sum of the durations of a row group. -/
def sumDur (l : List UnitTiming) : ℚ :=
  l.foldl (fun x u => x + u.duration) 0

/-- Model of `lib_timings.get(&key).or_else(|| all_timings.get(&key))` (build.rs). -/
def chosenTiming (units : List UnitTiming) (key : TimingKey) : Option (ℚ × ℚ) :=
  ((buildTimings units).2.lookup key).orElse (fun _ => (buildTimings units).1.lookup key)

/-- The in-place node mutation of `apply_timings` (build.rs): seconds to
milliseconds, `fresh = duration < 0.001`. -/
def timedNode (sd : ℚ × ℚ) (n : CrateNode) : CrateNode :=
  { n with start_ms := some (sd.1 * 1000), duration_ms := some (sd.2 * 1000),
           fresh := decide (sd.2 < 1 / 1000) }

/-- One iteration of the node-update loop of `apply_timings` (build.rs). -/
def applyNode (units : List UnitTiming) (kn : CrateId × CrateNode) :
    CrateId × CrateNode :=
  match chosenTiming units (kn.2.name, kn.2.version) with
  | some sd => (kn.1, timedNode sd kn.2)
  | none => kn

/-- The node-update loop of `apply_timings` (build.rs): prefer `lib_timings`,
fall back to `all_timings`, leave the node untouched when neither has the key. -/
def applyUnitTimings (units : List UnitTiming) (g : BuildGraph) : BuildGraph :=
  { g with nodes := g.nodes.map (applyNode units) }

/-- The three failure modes of `parse_unit_data` (build.rs). -/
inductive ParseErr where
  | markerNotFound
  | endNotFound
  | jsonError
deriving DecidableEq, Repr

/-- Constant `"const UNIT_DATA = "` (build.rs). -/
def start_marker : List Char := "const UNIT_DATA = ".toList

/-- Model of `parse_unit_data` (build.rs).  Here `decode` stands for the external
`serde_json::from_str::<Vec<UnitTiming>>` collaborator (`none` = decode
failure); the rest is the source's marker search and slicing, on chars. -/
def parse_unit_data (decode : List Char → Option (List UnitTiming)) (html : List Char) :
    Except ParseErr (List UnitTiming) :=
  match findSub html start_marker with
  | none => .error .markerNotFound
  | some start_idx =>
    let rest := html.drop (start_idx + start_marker.length)
    match findSub rest "];".toList with
    | none => .error .endNotFound
    | some end_idx =>
      match decode (rest.take (end_idx + 1)) with
      | none => .error .jsonError
      | some units => .ok units

/-- Model of `apply_timings` (build.rs) after the file read: parse, mutate timing
fields, then run the critical-path solver.  The result pairs the graph (as
mutated in place) with the `Result`; outer `none` models a diverging
`compute_critical_path`. -/
def apply_timings_model (decode : List Char → Option (List UnitTiming))
    (html : List Char) (fuel : Nat) (g : BuildGraph) :
    Option (BuildGraph × Except ParseErr Unit) :=
  match parse_unit_data decode html with
  | .error e => some (g, .error e)
  | .ok units =>
    (computeCriticalPathF fuel (applyUnitTimings units g)).map (fun g2 => (g2, .ok ()))

/-! ## Graph builder (metadata.rs, `load_dependency_graph`) -/

/-- One entry of `metadata.packages`. -/
structure Package where
  id : String
  name : String
  version : String
deriving DecidableEq, Repr

/-- One entry of `resolve.nodes[_].deps`; `dep_kinds` carries the
`format!("{:?}", dk.kind)` strings. -/
structure NodeDep where
  pkg : String
  dep_kinds : List String
deriving DecidableEq, Repr

/-- One entry of `resolve.nodes`. -/
structure ResolveNode where
  id : String
  deps : List NodeDep
  features : List String
deriving DecidableEq, Repr

/-- The parts of `cargo_metadata::Metadata` read by `load_dependency_graph`. -/
structure Metadata where
  packages : List Package
  resolve : Option (List ResolveNode)
  workspace_members : List String
deriving DecidableEq, Repr

/-- Model of `pkg_map.get`: the `HashMap` was collected from `packages` in order, so
a duplicated id keeps the last package. -/
def pkgGet (ps : List Package) (id : String) : Option Package :=
  (ps.filter (fun p => p.id == id)).getLast?

/-- Model of `HashMap::insert` on the nodes map: replace an existing key, else add. -/
def insertNode (ns : List (CrateId × CrateNode)) (k : CrateId) (v : CrateNode) :
    List (CrateId × CrateNode) :=
  if ns.any (fun p => p.1 == k) then ns.map (fun p => if p.1 == k then (k, v) else p)
  else ns ++ [(k, v)]

/-- The fresh `CrateNode` built for one resolve node (metadata.rs). -/
def builtNode (node : ResolveNode) (pkg : Package) (is_ws : Bool) : CrateNode :=
  { id := node.id, name := pkg.name, version := pkg.version,
    is_workspace_member := is_ws, duration_ms := none,
    start_ms := none, fresh := false, features := node.features }

/-- One iteration of the `for node in &resolve.nodes` loop (metadata.rs):
skip non-workspace nodes when `include_deps` is false, skip nodes absent
from the package map, insert the node, and push an edge for each dependency
with `include_deps || ws_members.contains(&dep.pkg)`. -/
def lgStep (meta : Metadata) (include_deps : Bool)
    (acc : List (CrateId × CrateNode) × List DepEdge) (node : ResolveNode) :
    List (CrateId × CrateNode) × List DepEdge :=
  if !include_deps && !(meta.workspace_members.contains node.id) then acc
  else
    match pkgGet meta.packages node.id with
    | none => acc
    | some pkg =>
      (insertNode acc.1 node.id
         (builtNode node pkg (meta.workspace_members.contains node.id)),
       acc.2 ++ node.deps.filterMap (fun dep =>
         if include_deps || meta.workspace_members.contains dep.pkg then
           some ⟨node.id, dep.pkg, dep.dep_kinds⟩
         else none))

/-- Model of `load_dependency_graph` (metadata.rs), given the already-fetched
metadata. -/
def load_dependency_graph (meta : Metadata) (include_deps : Bool) :
    Except String BuildGraph :=
  match meta.resolve with
  | none => .error "no dependency resolution found"
  | some rnodes =>
    let ne := rnodes.foldl (lgStep meta include_deps) ([], [])
    .ok { nodes := ne.1, edges := ne.2, roots := meta.workspace_members,
          critical_path := [] }

/-! ## Example graphs used by the witnesses -/

/-- The A→B→C example graph of the spec (§8): A depends on B, B depends on C,
durations A=10ms, B=20ms, C=30ms. -/
def exampleNode (id : CrateId) (dur : ℚ) : CrateNode :=
  { id := id, name := id, version := "1.0.0", is_workspace_member := true,
    duration_ms := some dur, start_ms := none, fresh := false, features := [] }

def chainGraph : BuildGraph :=
  { nodes := [("A", exampleNode "A" 10), ("B", exampleNode "B" 20), ("C", exampleNode "C" 30)],
    edges := [⟨"A", "B", ["Normal"]⟩, ⟨"B", "C", ["Normal"]⟩],
    roots := ["A"],
    critical_path := [] }

/-- A graph with a single accidental self-loop: node A, edge A→A. -/
def selfLoopGraph : BuildGraph :=
  { nodes := [("A", exampleNode "A" 10)],
    edges := [⟨"A", "A", ["Normal"]⟩],
    roots := ["A"],
    critical_path := [] }

/-- The diamond of spec §8: A depends on B and C, B and C depend on D;
durations chosen so that B and C tie in accumulated cost. -/
def diamondNodes : List (CrateId × CrateNode) :=
  [("A", exampleNode "A" 10), ("B", exampleNode "B" 20),
   ("C", exampleNode "C" 20), ("D", exampleNode "D" 5)]

def diamondGraph (nodesOrder : List (CrateId × CrateNode)) : BuildGraph :=
  { nodes := nodesOrder,
    edges := [⟨"A", "B", ["Normal"]⟩, ⟨"A", "C", ["Normal"]⟩,
              ⟨"B", "D", ["Normal"]⟩, ⟨"C", "D", ["Normal"]⟩],
    roots := ["A"],
    critical_path := [] }

/-! ## Critical-path solver: invariant lemmas -/

/-- Computes `max(0, max over the list of memoized costs)` — the accumulated value of
the dependent loop of `longest`, read back from a state. -/
def maxCost0 (s : CPState) (l : List CrateId) : ℚ :=
  l.foldl (fun a d => max a (costOrZero s d)) 0

/-- The reverse-dependency relation is acyclic. -/
def Acyclic (dep : CrateId → List CrateId) : Prop :=
  ∀ id, ¬ Relation.TransGen (fun a b => b ∈ dep a) id id

/-- The invariant maintained by `longest` over the two memo maps: every memo
entry satisfies the cost recurrence of the spec (own duration plus the best
dependent cost, `0` with no dependents), its dependents are all memoized, and
every `next_on_path` entry points at a dependent whose memoized cost accounts
exactly for the rest of the recorded total. -/
def goodState (nodes : List (CrateId × CrateNode)) (dep : CrateId → List CrateId)
    (s : CPState) : Prop :=
  (∀ id c, s.cost.lookup id = some c →
    (∀ d ∈ dep id, (s.cost.lookup d).isSome = true) ∧
    c = durOf nodes id + maxCost0 s (dep id)) ∧
  (∀ id d, s.next_on_path.lookup id = some d →
    d ∈ dep id ∧ ∃ cd, s.cost.lookup d = some cd ∧
      s.cost.lookup id = some (durOf nodes id + cd))

theorem goodState_nil (nodes : List (CrateId × CrateNode)) (dep : CrateId → List CrateId) :
    goodState nodes dep ⟨[], []⟩ := by
  constructor
  · intro id c h; simp [List.lookup] at h
  · intro id d h; simp [List.lookup] at h

theorem lookup_cons_self {α β : Type} [BEq α] [LawfulBEq α] (l : List (α × β))
    (k : α) (v : β) : ((k, v) :: l).lookup k = some v := by
  simp [List.lookup]

theorem lookup_cons_ne {α β : Type} [BEq α] [LawfulBEq α] (l : List (α × β))
    (k k' : α) (v : β) (h : k' ≠ k) : ((k, v) :: l).lookup k' = l.lookup k' := by
  have hb : (k' == k) = false := by
    cases hx : k' == k with
    | false => rfl
    | true => exact absurd (beq_iff_eq.mp hx) h
  simp [List.lookup, hb]

theorem maxCost0_congr {s1 s2 : CPState} {l : List CrateId}
    (h : ∀ d ∈ l, costOrZero s2 d = costOrZero s1 d) :
    maxCost0 s2 l = maxCost0 s1 l := by
  unfold maxCost0
  apply List.foldl_ext
  intro a d hd
  rw [h d hd]

section CPProofs

variable {nodes : List (CrateId × CrateNode)} {dep : CrateId → List CrateId}
variable {rec : CrateId → CPState → Option (ℚ × CPState)}

theorem childLoopAux_mono
    (hrec : ∀ d s c s1, rec d s = some (c, s1) →
      ∀ k v, s.cost.lookup k = some v → s1.cost.lookup k = some v) :
    ∀ {l bc bch s bc' bch' s'},
      childLoopAux rec l bc bch s = some (bc', bch', s') →
      ∀ k v, s.cost.lookup k = some v → s'.cost.lookup k = some v := by
  intro l
  induction l with
  | nil =>
    intro bc bch s bc' bch' s' h k v hk
    simp only [childLoopAux, Option.some.injEq] at h
    obtain ⟨-, -, rfl⟩ := h
    exact hk
  | cons d ds ih =>
    intro bc bch s bc' bch' s' h k v hk
    cases hrd : rec d s with
    | none => simp [childLoopAux, hrd] at h
    | some cs =>
      obtain ⟨c, s1⟩ := cs
      simp only [childLoopAux, hrd] at h
      have hk1 := hrec d s c s1 hrd k v hk
      split at h
      · exact ih h k v hk1
      · exact ih h k v hk1

theorem longestF_mono :
    ∀ {fuel x s c s'}, longestF nodes dep fuel x s = some (c, s') →
      ∀ k v, s.cost.lookup k = some v → s'.cost.lookup k = some v := by
  intro fuel
  induction fuel with
  | zero => intro x s c s' h; exact absurd h (by simp [longestF])
  | succ n ih =>
    intro x s c s' h k v hk
    cases hl : s.cost.lookup x with
    | some c0 =>
      simp only [longestF, hl, Option.some.injEq, Prod.mk.injEq] at h
      obtain ⟨-, rfl⟩ := h
      exact hk
    | none =>
      cases hcl : childLoopAux (longestF nodes dep n) (dep x) 0 none s with
      | none => simp [longestF, hl, hcl] at h
      | some r =>
        obtain ⟨bc, bch, s1⟩ := r
        simp only [longestF, hl, hcl, Option.some.injEq, Prod.mk.injEq] at h
        obtain ⟨-, rfl⟩ := h
        have hk1 : s1.cost.lookup k = some v :=
          childLoopAux_mono (fun d s c s1 hr => ih hr) hcl k v hk
        have hkx : (k == x) = false := by
          cases h' : k == x with
          | false => rfl
          | true => exact absurd (beq_iff_eq.mp h' ▸ hk) (by simp [hl])
        simpa [List.lookup, hkx] using hk1

theorem longestF_self :
    ∀ {fuel x s c s'}, longestF nodes dep fuel x s = some (c, s') →
      s'.cost.lookup x = some c := by
  intro fuel x s c s' h
  cases fuel with
  | zero => exact absurd h (by simp [longestF])
  | succ n =>
    cases hl : s.cost.lookup x with
    | some c0 =>
      simp only [longestF, hl, Option.some.injEq, Prod.mk.injEq] at h
      obtain ⟨rfl, rfl⟩ := h
      exact hl
    | none =>
      cases hcl : childLoopAux (longestF nodes dep n) (dep x) 0 none s with
      | none => simp [longestF, hl, hcl] at h
      | some r =>
        obtain ⟨bc, bch, s1⟩ := r
        simp only [longestF, hl, hcl, Option.some.injEq, Prod.mk.injEq] at h
        obtain ⟨rfl, rfl⟩ := h
        simp [List.lookup]

theorem childLoopAux_bc_le :
    ∀ {l bc bch s bc' bch' s'},
      childLoopAux rec l bc bch s = some (bc', bch', s') → bc ≤ bc' := by
  intro l
  induction l with
  | nil =>
    intro bc bch s bc' bch' s' h
    simp only [childLoopAux, Option.some.injEq] at h
    obtain ⟨rfl, -, -⟩ := h
    exact le_refl _
  | cons d ds ih =>
    intro bc bch s bc' bch' s' h
    cases hrd : rec d s with
    | none => simp [childLoopAux, hrd] at h
    | some cs =>
      obtain ⟨c, s1⟩ := cs
      simp only [childLoopAux, hrd] at h
      split at h
      · exact le_trans (le_of_lt (by assumption)) (ih h)
      · exact ih h

theorem childLoopAux_processed
    (hmono : ∀ d s c s1, rec d s = some (c, s1) →
      ∀ k v, s.cost.lookup k = some v → s1.cost.lookup k = some v)
    (hself : ∀ d s c s1, rec d s = some (c, s1) → s1.cost.lookup d = some c) :
    ∀ {l bc bch s bc' bch' s'},
      childLoopAux rec l bc bch s = some (bc', bch', s') →
      ∀ x ∈ l, ∃ cx, s'.cost.lookup x = some cx ∧ cx ≤ bc' := by
  intro l
  induction l with
  | nil =>
    intro bc bch s bc' bch' s' h x hx
    exact absurd hx (List.not_mem_nil x)
  | cons d ds ih =>
    intro bc bch s bc' bch' s' h x hx
    cases hrd : rec d s with
    | none => simp [childLoopAux, hrd] at h
    | some cs =>
      obtain ⟨c, s1⟩ := cs
      simp only [childLoopAux, hrd] at h
      have hd := hself d s c s1 hrd
      rcases List.mem_cons.mp hx with rfl | hx
      · split at h
        · exact ⟨c, childLoopAux_mono hmono h x c hd, childLoopAux_bc_le h⟩
        · exact ⟨c, childLoopAux_mono hmono h x c hd,
            le_trans (le_of_not_lt (by assumption)) (childLoopAux_bc_le h)⟩
      · split at h
        · exact ih h x hx
        · exact ih h x hx

theorem childLoopAux_final_bc
    (hmono : ∀ d s c s1, rec d s = some (c, s1) →
      ∀ k v, s.cost.lookup k = some v → s1.cost.lookup k = some v)
    (hself : ∀ d s c s1, rec d s = some (c, s1) → s1.cost.lookup d = some c) :
    ∀ {l bc bch s bc' bch' s'},
      childLoopAux rec l bc bch s = some (bc', bch', s') →
      bc' = l.foldl (fun a d => max a (costOrZero s' d)) bc := by
  intro l
  induction l with
  | nil =>
    intro bc bch s bc' bch' s' h
    simp only [childLoopAux, Option.some.injEq] at h
    obtain ⟨rfl, -, -⟩ := h
    rfl
  | cons d ds ih =>
    intro bc bch s bc' bch' s' h
    cases hrd : rec d s with
    | none => simp [childLoopAux, hrd] at h
    | some cs =>
      obtain ⟨c, s1⟩ := cs
      simp only [childLoopAux, hrd] at h
      have hd := hself d s c s1 hrd
      split at h
      case isTrue hlt =>
        have hfin : s'.cost.lookup d = some c := childLoopAux_mono hmono h d c hd
        have hco : costOrZero s' d = c := by simp [costOrZero, hfin]
        have := ih h
        simp only [List.foldl_cons, hco]
        rw [max_eq_right (le_of_lt hlt)]
        exact this
      case isFalse hge =>
        have hfin : s'.cost.lookup d = some c := childLoopAux_mono hmono h d c hd
        have hco : costOrZero s' d = c := by simp [costOrZero, hfin]
        have := ih h
        simp only [List.foldl_cons, hco]
        rw [max_eq_left (le_of_not_lt hge)]
        exact this

theorem childLoopAux_bch
    (hmono : ∀ d s c s1, rec d s = some (c, s1) →
      ∀ k v, s.cost.lookup k = some v → s1.cost.lookup k = some v)
    (hself : ∀ d s c s1, rec d s = some (c, s1) → s1.cost.lookup d = some c) :
    ∀ {l bc bch s bc' bch' s'},
      childLoopAux rec l bc bch s = some (bc', bch', s') →
      (∀ d0, bch = some d0 → s.cost.lookup d0 = some bc) →
      ∀ d0, bch' = some d0 → s'.cost.lookup d0 = some bc' := by
  intro l
  induction l with
  | nil =>
    intro bc bch s bc' bch' s' h hin d0 hd0
    simp only [childLoopAux, Option.some.injEq] at h
    obtain ⟨rfl, rfl, rfl⟩ := h
    exact hin d0 hd0
  | cons d ds ih =>
    intro bc bch s bc' bch' s' h hin d0 hd0
    cases hrd : rec d s with
    | none => simp [childLoopAux, hrd] at h
    | some cs =>
      obtain ⟨c, s1⟩ := cs
      simp only [childLoopAux, hrd] at h
      split at h
      · refine ih h ?_ d0 hd0
        intro d1 hd1
        obtain rfl := Option.some.injEq _ _ ▸ hd1
        exact hself d s c s1 hrd
      · refine ih h ?_ d0 hd0
        intro d1 hd1
        exact hmono d s c s1 hrd d1 bc (hin d1 hd1)

theorem childLoopAux_bch_mem :
    ∀ {l bc bch s bc' bch' s'},
      childLoopAux rec l bc bch s = some (bc', bch', s') →
      ∀ d0, bch' = some d0 → d0 ∈ l ∨ bch = some d0 := by
  intro l
  induction l with
  | nil =>
    intro bc bch s bc' bch' s' h d0 hd0
    simp only [childLoopAux, Option.some.injEq] at h
    obtain ⟨-, rfl, -⟩ := h
    exact Or.inr hd0
  | cons d ds ih =>
    intro bc bch s bc' bch' s' h d0 hd0
    cases hrd : rec d s with
    | none => simp [childLoopAux, hrd] at h
    | some cs =>
      obtain ⟨c, s1⟩ := cs
      simp only [childLoopAux, hrd] at h
      split at h
      · rcases ih h d0 hd0 with hm | he
        · exact Or.inl (List.mem_cons_of_mem d hm)
        · obtain rfl := Option.some.injEq _ _ ▸ he
          exact Or.inl (List.mem_cons_self _ _)
      · rcases ih h d0 hd0 with hm | he
        · exact Or.inl (List.mem_cons_of_mem d hm)
        · exact Or.inr he

theorem childLoopAux_reach
    (hrec : ∀ d s c s1, rec d s = some (c, s1) →
      ∀ k, s1.cost.lookup k ≠ s.cost.lookup k →
        Relation.ReflTransGen (fun a b => b ∈ dep a) d k) :
    ∀ {l bc bch s bc' bch' s'},
      childLoopAux rec l bc bch s = some (bc', bch', s') →
      ∀ k, s'.cost.lookup k ≠ s.cost.lookup k →
        ∃ d ∈ l, Relation.ReflTransGen (fun a b => b ∈ dep a) d k := by
  intro l
  induction l with
  | nil =>
    intro bc bch s bc' bch' s' h k hk
    simp only [childLoopAux, Option.some.injEq] at h
    obtain ⟨-, -, rfl⟩ := h
    exact absurd rfl hk
  | cons d ds ih =>
    intro bc bch s bc' bch' s' h k hk
    cases hrd : rec d s with
    | none => simp [childLoopAux, hrd] at h
    | some cs =>
      obtain ⟨c, s1⟩ := cs
      simp only [childLoopAux, hrd] at h
      by_cases hch : s1.cost.lookup k = s.cost.lookup k
      · have hk1 : s'.cost.lookup k ≠ s1.cost.lookup k := by rw [hch]; exact hk
        split at h
        · obtain ⟨d1, hd1, hr⟩ := ih h k hk1
          exact ⟨d1, List.mem_cons_of_mem d hd1, hr⟩
        · obtain ⟨d1, hd1, hr⟩ := ih h k hk1
          exact ⟨d1, List.mem_cons_of_mem d hd1, hr⟩
      · exact ⟨d, List.mem_cons_self _ _, hrec d s c s1 hrd k hch⟩

theorem longestF_reach :
    ∀ {fuel x s c s'}, longestF nodes dep fuel x s = some (c, s') →
      ∀ k, s'.cost.lookup k ≠ s.cost.lookup k →
        Relation.ReflTransGen (fun a b => b ∈ dep a) x k := by
  intro fuel
  induction fuel with
  | zero => intro x s c s' h; exact absurd h (by simp [longestF])
  | succ n ih =>
    intro x s c s' h k hk
    cases hl : s.cost.lookup x with
    | some c0 =>
      simp only [longestF, hl, Option.some.injEq, Prod.mk.injEq] at h
      obtain ⟨-, rfl⟩ := h
      exact absurd rfl hk
    | none =>
      cases hcl : childLoopAux (longestF nodes dep n) (dep x) 0 none s with
      | none => simp [longestF, hl, hcl] at h
      | some r =>
        obtain ⟨bc, bch, s1⟩ := r
        simp only [longestF, hl, hcl, Option.some.injEq, Prod.mk.injEq] at h
        obtain ⟨-, rfl⟩ := h
        by_cases hkx : k = x
        · exact hkx ▸ Relation.ReflTransGen.refl
        · have hbeq : (k == x) = false := by
            cases h' : k == x with
            | false => rfl
            | true => exact absurd (beq_iff_eq.mp h') hkx
          have hk1 : s1.cost.lookup k ≠ s.cost.lookup k := by
            intro he
            apply hk
            simpa [List.lookup, hbeq] using he
          obtain ⟨d, hd, hr⟩ :=
            childLoopAux_reach (fun d s c s1 hr => ih hr) hcl k hk1
          exact Relation.ReflTransGen.head hd hr

theorem goodState_insert {s1 : CPState} {id : CrateId} {bc : ℚ} {bch : Option CrateId}
    (hgood : goodState nodes dep s1)
    (hid : s1.cost.lookup id = none)
    (hproc : ∀ d ∈ dep id, ∃ cd, s1.cost.lookup d = some cd)
    (hbc : bc = maxCost0 s1 (dep id))
    (hbch : ∀ d0, bch = some d0 → s1.cost.lookup d0 = some bc)
    (hbchmem : ∀ d0, bch = some d0 → d0 ∈ dep id) :
    goodState nodes dep
      ⟨(id, durOf nodes id + bc) :: s1.cost, nextUpdate id bch s1.next_on_path⟩ := by
  have hne : ∀ d cd, s1.cost.lookup d = some cd → d ≠ id := by
    intro d cd hd hde
    rw [hde, hid] at hd
    exact absurd hd (by simp)
  have hcong : ∀ (l : List CrateId), (∀ d ∈ l, (s1.cost.lookup d).isSome = true) →
      maxCost0 ⟨(id, durOf nodes id + bc) :: s1.cost, nextUpdate id bch s1.next_on_path⟩ l
        = maxCost0 s1 l := by
    intro l hl
    apply maxCost0_congr
    intro d hd
    obtain ⟨cd, hcd⟩ := Option.isSome_iff_exists.mp (hl d hd)
    simp only [costOrZero, lookup_cons_ne _ _ _ _ (hne d cd hcd)]
  constructor
  · intro k c hk
    simp only at hk
    by_cases hkid : k = id
    · subst hkid
      rw [lookup_cons_self] at hk
      obtain rfl : durOf nodes k + bc = c := by injection hk
      have hsome : ∀ d ∈ dep k, (s1.cost.lookup d).isSome = true := by
        intro d hd
        obtain ⟨cd, hcd⟩ := hproc d hd
        simp [hcd]
      constructor
      · intro d hd
        obtain ⟨cd, hcd⟩ := hproc d hd
        simp only [lookup_cons_ne _ _ _ _ (hne d cd hcd), hcd, Option.isSome_some]
      · rw [hcong (dep k) hsome, hbc]
    · rw [lookup_cons_ne _ _ _ _ hkid] at hk
      obtain ⟨hsome, hval⟩ := hgood.1 k c hk
      constructor
      · intro d hd
        obtain ⟨cd, hcd⟩ := Option.isSome_iff_exists.mp (hsome d hd)
        simp only [lookup_cons_ne _ _ _ _ (hne d cd hcd), hcd, Option.isSome_some]
      · simp only [hcong (dep k) hsome]
        exact hval
  · intro k d hk
    simp only [nextUpdate] at hk
    cases bch with
    | none =>
      obtain ⟨hmem, cd, hcd, hck⟩ := hgood.2 k d hk
      refine ⟨hmem, cd, ?_, ?_⟩
      · simp only [lookup_cons_ne _ _ _ _ (hne d cd hcd), hcd]
      · simp only [lookup_cons_ne _ _ _ _ (hne k _ hck), hck]
    | some ch =>
      by_cases hkid : k = id
      · subst hkid
        rw [lookup_cons_self] at hk
        obtain rfl : ch = d := by injection hk
        have hch := hbch ch rfl
        refine ⟨hbchmem ch rfl, bc, ?_, ?_⟩
        · simp only [lookup_cons_ne _ _ _ _ (hne ch bc hch), hch]
        · simp only [lookup_cons_self]
      · rw [lookup_cons_ne _ _ _ _ hkid] at hk
        obtain ⟨hmem, cd, hcd, hck⟩ := hgood.2 k d hk
        refine ⟨hmem, cd, ?_, ?_⟩
        · simp only [lookup_cons_ne _ _ _ _ (hne d cd hcd), hcd]
        · simp only [lookup_cons_ne _ _ _ _ (hne k _ hck), hck]

theorem childLoopAux_good
    (hrecg : ∀ d s c s1, rec d s = some (c, s1) →
      goodState nodes dep s → goodState nodes dep s1) :
    ∀ {l bc bch s bc' bch' s'},
      childLoopAux rec l bc bch s = some (bc', bch', s') →
      goodState nodes dep s → goodState nodes dep s' := by
  intro l
  induction l with
  | nil =>
    intro bc bch s bc' bch' s' h hg
    simp only [childLoopAux, Option.some.injEq] at h
    obtain ⟨-, -, rfl⟩ := h
    exact hg
  | cons d ds ih =>
    intro bc bch s bc' bch' s' h hg
    cases hrd : rec d s with
    | none => simp [childLoopAux, hrd] at h
    | some cs =>
      obtain ⟨c, s1⟩ := cs
      simp only [childLoopAux, hrd] at h
      have hg1 := hrecg d s c s1 hrd hg
      split at h
      · exact ih h hg1
      · exact ih h hg1

theorem longestF_good (hacyc : Acyclic dep) :
    ∀ {fuel x s c s'}, goodState nodes dep s →
      longestF nodes dep fuel x s = some (c, s') → goodState nodes dep s' := by
  intro fuel
  induction fuel with
  | zero => intro x s c s' hg h; exact absurd h (by simp [longestF])
  | succ n ih =>
    intro x s c s' hg h
    cases hl : s.cost.lookup x with
    | some c0 =>
      simp only [longestF, hl, Option.some.injEq, Prod.mk.injEq] at h
      obtain ⟨-, rfl⟩ := h
      exact hg
    | none =>
      cases hcl : childLoopAux (longestF nodes dep n) (dep x) 0 none s with
      | none => simp [longestF, hl, hcl] at h
      | some r =>
        obtain ⟨bc, bch, s1⟩ := r
        simp only [longestF, hl, hcl, Option.some.injEq, Prod.mk.injEq] at h
        obtain ⟨-, rfl⟩ := h
        have hg1 : goodState nodes dep s1 :=
          childLoopAux_good (fun d s c s1 hr hgs => ih hgs hr) hcl hg
        have hnoshadow : s1.cost.lookup x = none := by
          cases hsx : s1.cost.lookup x with
          | none => rfl
          | some v =>
            obtain ⟨d, hd, hr⟩ :=
              childLoopAux_reach (fun d s c s1 hr => longestF_reach hr) hcl x
                (by rw [hsx, hl]; simp)
            exact absurd (Relation.TransGen.head' hd hr) (hacyc x)
        have hproc : ∀ d ∈ dep x, ∃ cd, s1.cost.lookup d = some cd := by
          intro d hd
          obtain ⟨cd, hcd, -⟩ :=
            childLoopAux_processed (fun d s c s1 hr => longestF_mono hr)
              (fun d s c s1 hr => longestF_self hr) hcl d hd
          exact ⟨cd, hcd⟩
        have hbc : bc = maxCost0 s1 (dep x) :=
          childLoopAux_final_bc (fun d s c s1 hr => longestF_mono hr)
            (fun d s c s1 hr => longestF_self hr) hcl
        have hbch : ∀ d0, bch = some d0 → s1.cost.lookup d0 = some bc :=
          childLoopAux_bch (fun d s c s1 hr => longestF_mono hr)
            (fun d s c s1 hr => longestF_self hr) hcl (by intro d0 hd0; cases hd0)
        have hbchmem : ∀ d0, bch = some d0 → d0 ∈ dep x := by
          intro d0 hd0
          rcases childLoopAux_bch_mem hcl d0 hd0 with hm | he
          · exact hm
          · cases he
        exact goodState_insert hg1 hnoshadow hproc hbc hbch hbchmem

theorem runAll_mono {fuel : Nat} :
    ∀ {ids s s'}, runAll nodes dep fuel ids s = some s' →
      ∀ k v, s.cost.lookup k = some v → s'.cost.lookup k = some v := by
  intro ids
  induction ids with
  | nil =>
    intro s s' h k v hk
    simp only [runAll, Option.some.injEq] at h
    exact h ▸ hk
  | cons id ids ih =>
    intro s s' h k v hk
    cases hl : longestF nodes dep fuel id s with
    | none => simp [runAll, hl] at h
    | some cs =>
      obtain ⟨c, s1⟩ := cs
      simp only [runAll, hl] at h
      exact ih h k v (longestF_mono hl k v hk)

theorem runAll_good {fuel : Nat} (hacyc : Acyclic dep) :
    ∀ {ids s s'}, goodState nodes dep s → runAll nodes dep fuel ids s = some s' →
      goodState nodes dep s' := by
  intro ids
  induction ids with
  | nil =>
    intro s s' hg h
    simp only [runAll, Option.some.injEq] at h
    exact h ▸ hg
  | cons id ids ih =>
    intro s s' hg h
    cases hl : longestF nodes dep fuel id s with
    | none => simp [runAll, hl] at h
    | some cs =>
      obtain ⟨c, s1⟩ := cs
      simp only [runAll, hl] at h
      exact ih (longestF_good hacyc hg hl) h

theorem runAll_covers {fuel : Nat} :
    ∀ {ids s s'}, runAll nodes dep fuel ids s = some s' →
      ∀ id ∈ ids, ∃ c, s'.cost.lookup id = some c := by
  intro ids
  induction ids with
  | nil =>
    intro s s' h x hx
    exact absurd hx (List.not_mem_nil x)
  | cons id ids ih =>
    intro s s' h x hx
    cases hl : longestF nodes dep fuel id s with
    | none => simp [runAll, hl] at h
    | some cs =>
      obtain ⟨c, s1⟩ := cs
      simp only [runAll, hl] at h
      rcases List.mem_cons.mp hx with rfl | hx
      · exact ⟨c, runAll_mono h x c (longestF_self hl)⟩
      · exact ih h x hx

end CPProofs

/-! ## C8: duplicate-edge tolerance lemmas -/

section DupEdge

variable {nodes : List (CrateId × CrateNode)}

theorem childLoopAux_congr
    {rec rec' : CrateId → CPState → Option (ℚ × CPState)}
    (h : ∀ d s, rec' d s = rec d s) :
    ∀ (l : List CrateId) (bc : ℚ) (bch : Option CrateId) (s : CPState),
      childLoopAux rec' l bc bch s = childLoopAux rec l bc bch s := by
  intro l
  induction l with
  | nil => intro bc bch s; rfl
  | cons d ds ih =>
    intro bc bch s
    simp only [childLoopAux, h d s]
    cases rec d s with
    | none => rfl
    | some cs =>
      obtain ⟨c, s1⟩ := cs
      simp only
      split
      · exact ih c (some d) s1
      · exact ih bc bch s1

theorem childLoopAux_append
    {rec : CrateId → CPState → Option (ℚ × CPState)} :
    ∀ (l1 l2 : List CrateId) (bc : ℚ) (bch : Option CrateId) (s : CPState),
      childLoopAux rec (l1 ++ l2) bc bch s
        = match childLoopAux rec l1 bc bch s with
          | none => none
          | some (bc', bch', s') => childLoopAux rec l2 bc' bch' s' := by
  intro l1
  induction l1 with
  | nil => intro l2 bc bch s; rfl
  | cons d ds ih =>
    intro l2 bc bch s
    simp only [List.cons_append, childLoopAux]
    cases rec d s with
    | none => rfl
    | some cs =>
      obtain ⟨c, s1⟩ := cs
      simp only
      split
      · exact ih l2 c (some d) s1
      · exact ih l2 bc bch s1

theorem childLoopAux_fuel_zero {dep : CrateId → List CrateId} :
    ∀ {l : List CrateId} {bc bch s r},
      childLoopAux (longestF nodes dep 0) l bc bch s = some r → l = [] := by
  intro l bc bch s r h
  cases l with
  | nil => rfl
  | cons d ds => simp [childLoopAux, longestF] at h

theorem childLoopAux_dup {dep : CrateId → List CrateId} {fuel : Nat}
    {l : List CrateId} {f0 : CrateId} (hf : f0 ∈ l) :
    ∀ (bc : ℚ) (bch : Option CrateId) (s : CPState),
      childLoopAux (longestF nodes dep fuel) (l ++ [f0]) bc bch s
        = childLoopAux (longestF nodes dep fuel) l bc bch s := by
  intro bc bch s
  rw [childLoopAux_append]
  cases hcl : childLoopAux (longestF nodes dep fuel) l bc bch s with
  | none => rfl
  | some r =>
    obtain ⟨bc', bch', s'⟩ := r
    cases fuel with
    | zero =>
      obtain rfl := childLoopAux_fuel_zero hcl
      exact absurd hf (List.not_mem_nil f0)
    | succ m =>
      obtain ⟨cf, hcf, hle⟩ :=
        childLoopAux_processed (fun d s c s1 hr => longestF_mono hr)
          (fun d s c s1 hr => longestF_self hr) hcl f0 hf
      have hnlt : ¬ bc' < cf := not_lt_of_le hle
      simp [childLoopAux, longestF, hcf, hnlt]

theorem longestF_extend {dep dep' : CrateId → List CrateId} {t0 f0 : CrateId}
    (hf : f0 ∈ dep t0)
    (hdep : ∀ id, dep' id = if t0 = id then dep id ++ [f0] else dep id) :
    ∀ (fuel : Nat) (x : CrateId) (s : CPState),
      longestF nodes dep' fuel x s = longestF nodes dep fuel x s := by
  intro fuel
  induction fuel with
  | zero => intro x s; rfl
  | succ n ih =>
    intro x s
    cases hl : s.cost.lookup x with
    | some c => simp [longestF, hl]
    | none =>
      simp only [longestF, hl]
      rw [hdep x, childLoopAux_congr (fun d s => ih d s)]
      by_cases hx : t0 = x
      · rw [if_pos hx, childLoopAux_dup (hx ▸ hf)]
      · rw [if_neg hx]

theorem runAll_congr {dep dep' : CrateId → List CrateId} {fuel : Nat}
    (h : ∀ x s, longestF nodes dep' fuel x s = longestF nodes dep fuel x s) :
    ∀ (ids : List CrateId) (s : CPState),
      runAll nodes dep' fuel ids s = runAll nodes dep fuel ids s := by
  intro ids
  induction ids with
  | nil => intro s; rfl
  | cons id ids ih =>
    intro s
    simp only [runAll, h id s]
    cases longestF nodes dep fuel id s with
    | none => rfl
    | some cs => exact ih cs.2

end DupEdge

theorem contains_true_iff (l : List CrateId) (a : CrateId) :
    l.contains a = true ↔ a ∈ l := List.elem_iff

/-- C8:  Appending a duplicate of an existing edge (same endpoints, any
dependency-kind tags) to the edge list changes neither the solver state (so
no node cost is double-counted) nor the critical path: the duplicated
dependent is evaluated through the memo table and cannot strictly beat the
best cost already recorded for the same dependent. -/
theorem c8_duplicate_edge_no_double_count (g : BuildGraph) (e : DepEdge)
    (kinds : List String) (fuel : Nat) (he : e ∈ g.edges) :
    criticalPathDataF fuel { g with edges := g.edges ++ [⟨e.«from», e.«to», kinds⟩] }
      = criticalPathDataF fuel g ∧
    (computeCriticalPathF fuel { g with edges := g.edges ++ [⟨e.«from», e.«to», kinds⟩] }).map
        (fun g2 => g2.critical_path)
      = (computeCriticalPathF fuel g).map (fun g2 => g2.critical_path) := by
  have hf : e.«from» ∈ dependentsOf g e.«to» := by
    unfold dependentsOf
    exact List.mem_map.mpr ⟨e, List.mem_filter.mpr ⟨he, by simp⟩, rfl⟩
  have hdep : ∀ id, dependentsOf { g with edges := g.edges ++ [⟨e.«from», e.«to», kinds⟩] } id
      = if e.«to» = id then dependentsOf g id ++ [e.«from»] else dependentsOf g id := by
    intro id
    unfold dependentsOf
    simp only [List.filter_append, List.map_append]
    by_cases h : e.«to» = id
    · rw [if_pos h]
      simp [h]
    · rw [if_neg h]
      have hb : ((⟨e.«from», e.«to», kinds⟩ : DepEdge).«to» == id) = false := by
        cases hx : (e.«to» == id) with
        | false => rfl
        | true => exact absurd (beq_iff_eq.mp hx) h
      simp [hb]
  have hlong := @longestF_extend g.nodes _ _ _ _ hf hdep
  have hrunsame : ∀ s, runAll g.nodes
        (dependentsOf { g with edges := g.edges ++ [⟨e.«from», e.«to», kinds⟩] }) fuel
        (g.nodes.map (fun kn => kn.1)) s
      = runAll g.nodes (dependentsOf g) fuel (g.nodes.map (fun kn => kn.1)) s :=
    fun s => runAll_congr (fun x s => hlong fuel x s) _ s
  have hc : ∀ id, (((g.edges ++ [(⟨e.«from», e.«to», kinds⟩ : DepEdge)]).map
        (fun ed => ed.«from»)).contains id)
      = ((g.edges.map (fun ed => ed.«from»)).contains id) := by
    intro id
    rw [Bool.eq_iff_iff, contains_true_iff, contains_true_iff, List.map_append, List.mem_append]
    constructor
    · rintro (h | h)
      · exact h
      · simp only [List.map_cons, List.map_nil, List.mem_singleton] at h
        exact h ▸ List.mem_map.mpr ⟨e, he, rfl⟩
    · exact Or.inl
  have hone : criticalPathDataF fuel { g with edges := g.edges ++ [⟨e.«from», e.«to», kinds⟩] }
      = criticalPathDataF fuel g := by
    simp only [criticalPathDataF]
    rw [hrunsame]
    cases runAll g.nodes (dependentsOf g) fuel (g.nodes.map (fun kn => kn.1)) ⟨[], []⟩ with
    | none => rfl
    | some s0 =>
      have hfilter : ((g.nodes.map (fun kn => kn.1)).filter
          (fun id => !(((g.edges ++ [(⟨e.«from», e.«to», kinds⟩ : DepEdge)]).map
              (fun ed => ed.«from»)).contains id)))
        = ((g.nodes.map (fun kn => kn.1)).filter
          (fun id => !((g.edges.map (fun ed => ed.«from»)).contains id))) := by
        apply List.filter_congr
        intro id _
        rw [hc id]
      simp only [hfilter]
  refine ⟨hone, ?_⟩
  simp only [computeCriticalPathF, hone]
  cases criticalPathDataF fuel g with
  | none => rfl
  | some sp => simp

/-- Witness for C8: the A→B→C graph with its A→B edge duplicated (fresh
kind tags) yields the identical solver result. -/
theorem c8_duplicate_edge_no_double_count_witness :
    ((⟨"A", "B", ["Normal"]⟩ : DepEdge) ∈ chainGraph.edges) ∧
    criticalPathDataF 5
        { chainGraph with edges := chainGraph.edges ++ [⟨"A", "B", ["Dev"]⟩] }
      = criticalPathDataF 5 chainGraph := by
  have he : (⟨"A", "B", ["Normal"]⟩ : DepEdge) ∈ chainGraph.edges := by decide
  exact ⟨he, (c8_duplicate_edge_no_double_count chainGraph _ ["Dev"] 5 he).1⟩


theorem cmpQ_eq_gt {a b : ℚ} : cmpQ a b = .gt ↔ b < a := by
  unfold cmpQ
  split
  · case isTrue h1 => simp [Ordering.noConfusion, lt_asymm h1]
  · split
    · case isTrue h2 => simp [h2]
    · case isFalse h2 => simp [h2]

theorem rustMaxBy_none {α : Type} {cmp : α → α → Ordering} {l : List α}
    (h : rustMaxBy cmp l = none) : l = [] := by
  cases l with
  | nil => rfl
  | cons x xs => simp [rustMaxBy] at h

theorem rustMaxBy_max {α : Type} (f : α → ℚ) :
    ∀ {l : List α} {m : α}, rustMaxBy (fun a b => cmpQ (f a) (f b)) l = some m →
      m ∈ l ∧ ∀ y ∈ l, f y ≤ f m := by
  have step : ∀ (xs : List α) (x : α),
      (xs.foldl (fun a y => if cmpQ (f a) (f y) = .gt then a else y) x) ∈ x :: xs ∧
      ∀ y ∈ x :: xs, f y ≤ f (xs.foldl (fun a y => if cmpQ (f a) (f y) = .gt then a else y) x) := by
    intro xs
    induction xs with
    | nil =>
      intro x
      refine ⟨List.mem_cons_self _ _, ?_⟩
      intro y hy
      rcases List.mem_cons.mp hy with rfl | hy
      · exact le_refl _
      · exact absurd hy (List.not_mem_nil y)
    | cons z zs ih =>
      intro x
      simp only [List.foldl_cons]
      obtain ⟨hm, hb⟩ := ih (if cmpQ (f x) (f z) = .gt then x else z)
      have hstep_le_x : f x ≤ f (if cmpQ (f x) (f z) = .gt then x else z) := by
        split
        · exact le_refl _
        · case isFalse hngt => exact le_of_not_lt ((not_congr cmpQ_eq_gt).mp hngt)
      have hstep_le_z : f z ≤ f (if cmpQ (f x) (f z) = .gt then x else z) := by
        split
        · case isTrue hgt => exact le_of_lt (cmpQ_eq_gt.mp hgt)
        · exact le_refl _
      constructor
      · rcases List.mem_cons.mp hm with he | hm'
        · rw [he]
          split
          · exact List.mem_cons_self _ _
          · exact List.mem_cons_of_mem _ (List.mem_cons_self _ _)
        · exact List.mem_cons_of_mem _ (List.mem_cons_of_mem _ hm')
      · intro y hy
        rcases List.mem_cons.mp hy with rfl | hy'
        · exact le_trans hstep_le_x (hb _ (List.mem_cons_self _ _))
        · rcases List.mem_cons.mp hy' with rfl | hy''
          · exact le_trans hstep_le_z (hb _ (List.mem_cons_self _ _))
          · exact hb y (List.mem_cons_of_mem _ hy'')
  intro l m h
  cases l with
  | nil => simp [rustMaxBy] at h
  | cons x xs =>
    simp only [rustMaxBy, Option.some.injEq] at h
    subst h
    exact step xs x

theorem walkF_spec {next : List (CrateId × CrateId)} :
    ∀ {fuel st p}, walkF next fuel st = some p →
      p.head? = some st ∧
      List.Chain' (fun a b => next.lookup a = some b) p ∧
      ∀ last, p.getLast? = some last → next.lookup last = none := by
  intro fuel
  induction fuel with
  | zero => intro st p h; exact absurd h (by simp [walkF])
  | succ n ih =>
    intro st p h
    cases hl : next.lookup st with
    | none =>
      simp only [walkF, hl, Option.some.injEq] at h
      subst h
      refine ⟨rfl, List.chain'_singleton _, ?_⟩
      intro last hlast
      simp only [List.getLast?_singleton, Option.some.injEq] at hlast
      exact hlast ▸ hl
    | some nx =>
      simp only [walkF, hl] at h
      cases hw : walkF next n nx with
      | none => rw [hw] at h; simp at h
      | some p' =>
        rw [hw] at h
        simp only [Option.map_some', Option.some.injEq] at h
        obtain ⟨h1, h2, h3⟩ := ih hw
        cases p' with
        | nil => simp at h1
        | cons a t =>
          obtain rfl : a = nx := by simpa using h1
          subst h
          refine ⟨rfl, ?_, ?_⟩
          · exact List.chain'_cons.mpr ⟨hl, h2⟩
          · intro last hlast
            rw [List.getLast?_cons_cons] at hlast
            exact h3 last hlast

/-- Rank functions witness acyclicity of the reverse-dependency relation. -/
theorem acyclic_of_rank (dep : CrateId → List CrateId) (rank : CrateId → Nat)
    (h : ∀ a b, b ∈ dep a → rank b < rank a) : Acyclic dep := by
  intro id hid
  have key : ∀ x y, Relation.TransGen (fun a b => b ∈ dep a) x y → rank y < rank x := by
    intro x y hxy
    induction hxy with
    | single h1 => exact h _ _ h1
    | tail _ h2 ih => exact lt_trans (h _ _ h2) ih
  exact lt_irrefl _ (key id id hid)

/-- A graph all of whose edges strictly increase a rank from `from` to `to`
has an acyclic reverse-dependency relation. -/
theorem acyclic_of_edge_rank (g : BuildGraph) (rank : CrateId → Nat)
    (h : ∀ e ∈ g.edges, rank e.«from» < rank e.«to») :
    Acyclic (dependentsOf g) := by
  apply acyclic_of_rank _ rank
  intro a b hb
  unfold dependentsOf at hb
  obtain ⟨e, he, rfl⟩ := List.mem_map.mp hb
  obtain ⟨he1, he2⟩ := List.mem_filter.mp he
  have hto : e.«to» = a := beq_iff_eq.mp he2
  exact hto ▸ h e he1

/-- C1:  For every acyclic `BuildGraph` on which `compute_critical_path`
terminates, the memoized cost of every node is its own duration (0 when
unset) plus the maximum memoized cost among its dependents (the fold
`maxCost0` is 0 when there are no dependents); every recorded
`next_on_path` successor is the dependent achieving that maximum; the
written path starts at a node of globally maximal cost, follows
`next_on_path` step by step and ends at a node with no recorded successor;
and on the concrete A→B→C graph (durations 10/20/30 ms) the costs are
10/30/60 and the path is `[C, B, A]`. -/
theorem c1_critical_path_correct (g : BuildGraph) (fuel : Nat) (s : CPState)
    (p : List CrateId) (hacyc : Acyclic (dependentsOf g))
    (hrun : criticalPathDataF fuel g = some (s, p)) :
    ((∀ id ∈ g.nodes.map (fun kn => kn.1),
      s.cost.lookup id = some (durOf g.nodes id + maxCost0 s (dependentsOf g id))) ∧
    (∀ id d, s.next_on_path.lookup id = some d →
      d ∈ dependentsOf g id ∧ ∃ cd, s.cost.lookup d = some cd ∧
        s.cost.lookup id = some (durOf g.nodes id + cd)) ∧
    (g.nodes = [] → p = []) ∧
    (∀ st t, p = st :: t →
      (∀ id ∈ g.nodes.map (fun kn => kn.1), costOrZero s id ≤ costOrZero s st) ∧
      List.Chain' (fun a b => s.next_on_path.lookup a = some b) p ∧
      ∀ last, p.getLast? = some last → s.next_on_path.lookup last = none) ∧
    (g.nodes ≠ [] → p ≠ [])) ∧
    computeCriticalPathF fuel g = some { g with critical_path := p } ∧
    (criticalPathDataF 5 chainGraph).map
        (fun sp => (sp.2, costOrZero sp.1 "A", costOrZero sp.1 "B", costOrZero sp.1 "C"))
      = some (["C", "B", "A"], 10, 30, 60) := by
  refine ⟨?_, by unfold computeCriticalPathF; rw [hrun]; rfl, by with_unfolding_all rfl⟩
  simp only [criticalPathDataF] at hrun
  cases hra : runAll g.nodes (dependentsOf g) fuel (g.nodes.map (fun kn => kn.1)) ⟨[], []⟩ with
  | none => simp [hra] at hrun
  | some s0 =>
    simp only [hra] at hrun
    have hg0 : goodState g.nodes (dependentsOf g) s0 :=
      runAll_good hacyc (goodState_nil _ _) hra
    have hcov := runAll_covers hra
    have hmain : ∀ id ∈ g.nodes.map (fun kn => kn.1),
        s0.cost.lookup id
          = some (durOf g.nodes id + maxCost0 s0 (dependentsOf g id)) := by
      intro id hid
      obtain ⟨c, hc⟩ := hcov id hid
      have := (hg0.1 id c hc).2
      rw [hc, this]
    cases hmb : rustMaxBy
        (fun a b => cmpQ (costOrZero s0 a) (costOrZero s0 b))
        ((g.nodes.map (fun kn => kn.1)).filter
            (fun id => !((g.edges.map (fun e => e.«from»)).contains id))
          ++ g.nodes.map (fun kn => kn.1)) with
    | none =>
      simp only [hmb, Option.some.injEq, Prod.mk.injEq] at hrun
      obtain ⟨rfl, rfl⟩ := hrun
      have hnil := List.append_eq_nil.mp (rustMaxBy_none hmb)
      have hnodes : g.nodes = [] := List.map_eq_nil_iff.mp hnil.2
      refine ⟨hmain, hg0.2, fun _ => rfl, ?_, ?_⟩
      · intro st t hpe
        exact absurd hpe (by simp)
      · intro hne
        exact absurd hnodes hne
    | some st0 =>
      simp only [hmb] at hrun
      cases hw : walkF s0.next_on_path fuel st0 with
      | none => simp [hw] at hrun
      | some p0 =>
        simp only [hw, Option.map_some', Option.some.injEq, Prod.mk.injEq] at hrun
        obtain ⟨rfl, rfl⟩ := hrun
        obtain ⟨hhead, hchain, hlast⟩ := walkF_spec hw
        obtain ⟨-, hopt⟩ := rustMaxBy_max (costOrZero s0) hmb
        refine ⟨hmain, hg0.2, ?_, ?_, ?_⟩
        · intro hnodes
          rw [hnodes] at hmb
          simp [rustMaxBy] at hmb
        · intro st t hpe
          have hst : st = st0 := by
            rw [hpe] at hhead
            simpa using hhead
          subst hst
          refine ⟨?_, hchain, hlast⟩
          intro id hid
          exact hopt id (List.mem_append_right _ hid)
        · intro hne hpnil
          rw [hpnil] at hhead
          simp at hhead

/-- The final memo state of the solver on `chainGraph`. -/
def chainState : CPState :=
  ⟨[("C", 60), ("B", 30), ("A", 10)], [("C", "B"), ("B", "A")]⟩

/-- Witness for C1: the A→B→C graph is acyclic, the solver terminates on it
with fuel 5, and the cost recurrence holds there. -/
theorem c1_critical_path_correct_witness :
    Acyclic (dependentsOf chainGraph) ∧
    criticalPathDataF 5 chainGraph = some (chainState, ["C", "B", "A"]) ∧
    (∀ id ∈ chainGraph.nodes.map (fun kn => kn.1),
      chainState.cost.lookup id
        = some (durOf chainGraph.nodes id
            + maxCost0 chainState (dependentsOf chainGraph id))) := by
  have hacyc : Acyclic (dependentsOf chainGraph) :=
    acyclic_of_edge_rank chainGraph
      (fun id => if id = "C" then 2 else if id = "B" then 1 else 0)
      (by decide)
  have hrun : criticalPathDataF 5 chainGraph = some (chainState, ["C", "B", "A"]) := by
    with_unfolding_all rfl
  exact ⟨hacyc, hrun,
    (c1_critical_path_correct chainGraph 5 chainState ["C", "B", "A"] hacyc hrun).1.1⟩

/-! ## C2: behaviour on a self-loop -/

theorem longestF_selfLoop (fuel : Nat) :
    longestF selfLoopGraph.nodes (dependentsOf selfLoopGraph) fuel "A" ⟨[], []⟩ = none := by
  induction fuel with
  | zero => rfl
  | succ n ih =>
    have hdep : dependentsOf selfLoopGraph "A" = ["A"] := rfl
    simp only [longestF, List.lookup, hdep, childLoopAux, ih]

theorem criticalPathDataF_selfLoop (fuel : Nat) :
    criticalPathDataF fuel selfLoopGraph = none := by
  have h := longestF_selfLoop fuel
  simp only [criticalPathDataF, runAll, h]

/-- C2, refuting the claimed termination:  On a graph with an accidental
self-loop, `compute_critical_path` never terminates: `longest` consults the
memo map only on entry and records a node's cost only after all recursive
calls return, so an in-progress node is *not* treated as a degenerate value
and the recursion on the self-loop descends forever (here: fails for every
fuel bound). -/
theorem c2_self_loop_diverges (fuel : Nat) :
    computeCriticalPathF fuel selfLoopGraph = none := by
  simp [computeCriticalPathF, criticalPathDataF_selfLoop]


/-! ## Timing aggregation lemmas (C3, C7, C10) -/

theorem upsert_lookup_self (m : List (TimingKey × (ℚ × ℚ))) (k : TimingKey) (st dur : ℚ) :
    (upsert m k st dur).lookup k
      = some (min ((m.lookup k).getD (f64MAX, 0)).1 st,
              ((m.lookup k).getD (f64MAX, 0)).2 + dur) := by
  unfold upsert
  exact lookup_cons_self _ _ _

theorem upsert_lookup_ne (m : List (TimingKey × (ℚ × ℚ))) (k k' : TimingKey)
    (st dur : ℚ) (h : k' ≠ k) : (upsert m k st dur).lookup k' = m.lookup k' := by
  unfold upsert
  exact lookup_cons_ne _ _ _ _ h

theorem foldl_stepAll_lookup :
    ∀ (units : List UnitTiming) (m : List (TimingKey × (ℚ × ℚ))) (key : TimingKey),
      (units.foldl stepAll m).lookup key
        = match m.lookup key with
          | some e => some ((unitsFor units key).foldl aggStep e)
          | none =>
            if unitsFor units key = [] then none
            else some ((unitsFor units key).foldl aggStep (f64MAX, 0)) := by
  intro units
  induction units with
  | nil =>
    intro m key
    cases hm : m.lookup key <;> simp [unitsFor, hm]
  | cons u us ih =>
    intro m key
    by_cases hk : ((u.name, u.version) : TimingKey) = key
    · have hfor : unitsFor (u :: us) key = u :: unitsFor us key := by
        simp [unitsFor, List.filter_cons, hk]
      have hstep : (stepAll m u).lookup key
          = some (min ((m.lookup key).getD (f64MAX, 0)).1 u.start,
                  ((m.lookup key).getD (f64MAX, 0)).2 + u.duration) := by
        unfold stepAll
        rw [hk]
        exact upsert_lookup_self _ _ _ _
      rw [List.foldl_cons, ih (stepAll m u) key, hstep, hfor]
      cases hm : m.lookup key with
      | some e => simp [aggStep, List.foldl_cons]
      | none => simp [aggStep, List.foldl_cons]
    · have hb : (((u.name, u.version) : TimingKey) == key) = false := by
        cases hx : ((u.name, u.version) : TimingKey) == key with
        | false => rfl
        | true => exact absurd (beq_iff_eq.mp hx) hk
      have hfor : unitsFor (u :: us) key = unitsFor us key := by
        simp [unitsFor, List.filter_cons, hb]
      have hstep : (stepAll m u).lookup key = m.lookup key :=
        upsert_lookup_ne _ _ _ _ _ (fun he => hk he.symm)
      rw [List.foldl_cons, ih (stepAll m u) key, hstep, hfor]

theorem foldl_stepLib_eq :
    ∀ (units : List UnitTiming) (m : List (TimingKey × (ℚ × ℚ))),
      units.foldl stepLib m = (nonBS units).foldl stepAll m := by
  intro units
  induction units with
  | nil => intro m; rfl
  | cons u us ih =>
    intro m
    cases hbs : containsSub u.target.toList buildScriptPat with
    | true =>
      have h1 : stepLib m u = m := by
        simp only [stepLib, hbs]
        rfl
      have h2 : nonBS (u :: us) = nonBS us := by
        simp only [nonBS, List.filter_cons, hbs, Bool.not_true]
        rfl
      rw [List.foldl_cons, h1, h2, ih]
    | false =>
      have h1 : stepLib m u = stepAll m u := by
        simp only [stepLib, stepAll, hbs]
        rfl
      have h2 : nonBS (u :: us) = u :: nonBS us := by
        simp only [nonBS, List.filter_cons, hbs, Bool.not_false]
        rfl
      rw [List.foldl_cons, h1, h2, List.foldl_cons, ih]

theorem buildTimings_split (units : List UnitTiming) :
    buildTimings units = (units.foldl stepAll [], units.foldl stepLib []) := by
  have key : ∀ (us : List UnitTiming) (m : List (TimingKey × (ℚ × ℚ)) × List (TimingKey × (ℚ × ℚ))),
      us.foldl (fun ms u => (stepAll ms.1 u, stepLib ms.2 u)) m
        = (us.foldl stepAll m.1, us.foldl stepLib m.2) := by
    intro us
    induction us with
    | nil => intro m; rfl
    | cons u us ih => intro m; rw [List.foldl_cons, ih]; rfl
  exact key units ([], [])

theorem buildTimings_fst_lookup (units : List UnitTiming) (key : TimingKey) :
    (buildTimings units).1.lookup key
      = if unitsFor units key = [] then none
        else some ((unitsFor units key).foldl aggStep (f64MAX, 0)) := by
  rw [buildTimings_split]
  have := foldl_stepAll_lookup units [] key
  simpa [List.lookup] using this

theorem buildTimings_snd_lookup (units : List UnitTiming) (key : TimingKey) :
    (buildTimings units).2.lookup key
      = if unitsFor (nonBS units) key = [] then none
        else some ((unitsFor (nonBS units) key).foldl aggStep (f64MAX, 0)) := by
  rw [buildTimings_split]
  have h2 := foldl_stepLib_eq units []
  have := foldl_stepAll_lookup (nonBS units) [] key
  simp only [h2]
  simpa [List.lookup] using this

theorem foldl_aggStep_fst :
    ∀ (l : List UnitTiming) (a b : ℚ),
      (l.foldl aggStep (a, b)).1 = l.foldl (fun x u => min x u.start) a := by
  intro l
  induction l with
  | nil => intro a b; rfl
  | cons u us ih => intro a b; rw [List.foldl_cons, List.foldl_cons]; exact ih _ _

theorem foldl_aggStep_snd :
    ∀ (l : List UnitTiming) (a b : ℚ),
      (l.foldl aggStep (a, b)).2 = l.foldl (fun x u => x + u.duration) b := by
  intro l
  induction l with
  | nil => intro a b; rfl
  | cons u us ih => intro a b; rw [List.foldl_cons, List.foldl_cons]; exact ih _ _

theorem aggOf_eq (l : List UnitTiming) :
    l.foldl aggStep (f64MAX, 0) = (minStart l, sumDur l) := by
  have h1 := foldl_aggStep_fst l f64MAX 0
  have h2 := foldl_aggStep_snd l f64MAX 0
  unfold minStart sumDur
  exact Prod.ext h1 h2


/-- C3:  Reconciliation groups report rows by `(name, version)`; a node
whose key has at least one non-build-script row receives the non-build-script
aggregate (duration = 1000 × summed unit durations, start = 1000 × minimum
start offset), a node whose key has only build-script rows receives the
all-units aggregate, and a node with no matching rows is left unchanged. -/
theorem c3_reconciliation_aggregates (units : List UnitTiming) (g : BuildGraph)
    (k : CrateId) (n : CrateNode) (hmem : (k, n) ∈ g.nodes) :
    (unitsFor (nonBS units) (n.name, n.version) ≠ [] →
      (k, timedNode (minStart (unitsFor (nonBS units) (n.name, n.version)),
                     sumDur (unitsFor (nonBS units) (n.name, n.version))) n)
        ∈ (applyUnitTimings units g).nodes) ∧
    (unitsFor (nonBS units) (n.name, n.version) = [] →
      unitsFor units (n.name, n.version) ≠ [] →
      (k, timedNode (minStart (unitsFor units (n.name, n.version)),
                     sumDur (unitsFor units (n.name, n.version))) n)
        ∈ (applyUnitTimings units g).nodes) ∧
    (unitsFor (nonBS units) (n.name, n.version) = [] →
      unitsFor units (n.name, n.version) = [] →
      (k, n) ∈ (applyUnitTimings units g).nodes) := by
  refine ⟨?_, ?_, ?_⟩
  · intro hne
    have hcho : chosenTiming units (n.name, n.version)
        = some (minStart (unitsFor (nonBS units) (n.name, n.version)),
                sumDur (unitsFor (nonBS units) (n.name, n.version))) := by
      unfold chosenTiming
      rw [buildTimings_snd_lookup, if_neg hne, aggOf_eq]
      rfl
    unfold applyUnitTimings
    refine List.mem_map.mpr ⟨(k, n), hmem, ?_⟩
    unfold applyNode
    rw [hcho]
  · intro hnil hne
    have hcho : chosenTiming units (n.name, n.version)
        = some (minStart (unitsFor units (n.name, n.version)),
                sumDur (unitsFor units (n.name, n.version))) := by
      unfold chosenTiming
      rw [buildTimings_snd_lookup, if_pos hnil, buildTimings_fst_lookup, if_neg hne,
        aggOf_eq]
      rfl
    unfold applyUnitTimings
    refine List.mem_map.mpr ⟨(k, n), hmem, ?_⟩
    unfold applyNode
    rw [hcho]
  · intro hnil hnil2
    have hcho : chosenTiming units (n.name, n.version) = none := by
      unfold chosenTiming
      rw [buildTimings_snd_lookup, if_pos hnil, buildTimings_fst_lookup, if_pos hnil2]
      rfl
    unfold applyUnitTimings
    refine List.mem_map.mpr ⟨(k, n), hmem, ?_⟩
    unfold applyNode
    rw [hcho]

/-- C7:  A node that received timing has `fresh` equal to the boolean
"chosen aggregated duration (seconds) is below the 0.001 epsilon". -/
theorem c7_fresh_iff_below_epsilon (units : List UnitTiming) (g : BuildGraph)
    (k : CrateId) (n : CrateNode) (sd : ℚ × ℚ)
    (hmem : (k, n) ∈ g.nodes)
    (hsd : chosenTiming units (n.name, n.version) = some sd) :
    ((k, timedNode sd n) ∈ (applyUnitTimings units g).nodes) ∧
    ((timedNode sd n).fresh = true ↔ sd.2 < 1 / 1000) := by
  constructor
  · unfold applyUnitTimings
    refine List.mem_map.mpr ⟨(k, n), hmem, ?_⟩
    unfold applyNode
    rw [hsd]
  · show decide (sd.2 < 1 / 1000) = true ↔ sd.2 < 1 / 1000
    exact decide_eq_true_iff

/-- C10:  On success, `apply_timings` leaves the edge list, the roots,
the node keys and every node's identity fields (`id`, `name`, `version`,
`is_workspace_member`, `features`) unchanged — it only touches timing
fields and the graph's `critical_path`. -/
theorem c10_frame_effect (decode : List Char → Option (List UnitTiming))
    (html : List Char) (fuel : Nat) (g g2 : BuildGraph)
    (h : apply_timings_model decode html fuel g = some (g2, Except.ok ())) :
    g2.edges = g.edges ∧ g2.roots = g.roots ∧
    g2.nodes.map (fun kn => kn.1) = g.nodes.map (fun kn => kn.1) ∧
    List.Forall₂
      (fun (a b : CrateId × CrateNode) =>
        a.1 = b.1 ∧ a.2.id = b.2.id ∧ a.2.name = b.2.name ∧ a.2.version = b.2.version ∧
        a.2.is_workspace_member = b.2.is_workspace_member ∧ a.2.features = b.2.features)
      g.nodes g2.nodes := by
  unfold apply_timings_model at h
  cases hp : parse_unit_data decode html with
  | error e => simp [hp] at h
  | ok units =>
    simp only [hp] at h
    cases hcp : computeCriticalPathF fuel (applyUnitTimings units g) with
    | none => simp [hcp] at h
    | some g3 =>
      simp only [hcp, Option.map_some', Option.some.injEq, Prod.mk.injEq] at h
      obtain ⟨rfl, -⟩ := h
      unfold computeCriticalPathF at hcp
      cases hcd : criticalPathDataF fuel (applyUnitTimings units g) with
      | none => rw [hcd] at hcp; simp at hcp
      | some sp =>
        rw [hcd] at hcp
        simp only [Option.map_some', Option.some.injEq] at hcp
        subst hcp
        have happ : ∀ kn : CrateId × CrateNode, (applyNode units kn).1 = kn.1 := by
          intro kn
          unfold applyNode
          cases chosenTiming units (kn.2.name, kn.2.version) <;> rfl
        refine ⟨rfl, rfl, ?_, ?_⟩
        · show ((applyUnitTimings units g).nodes).map (fun kn => kn.1)
            = g.nodes.map (fun kn => kn.1)
          unfold applyUnitTimings
          rw [List.map_map]
          apply List.map_congr_left
          intro kn _
          exact happ kn
        · show List.Forall₂ _ g.nodes ((applyUnitTimings units g).nodes)
          unfold applyUnitTimings
          have key : ∀ l : List (CrateId × CrateNode),
              List.Forall₂
                (fun (a b : CrateId × CrateNode) =>
                  a.1 = b.1 ∧ a.2.id = b.2.id ∧ a.2.name = b.2.name ∧
                  a.2.version = b.2.version ∧
                  a.2.is_workspace_member = b.2.is_workspace_member ∧
                  a.2.features = b.2.features)
                l (l.map (applyNode units)) := by
            intro l
            induction l with
            | nil => exact List.Forall₂.nil
            | cons kn l ih =>
              refine List.Forall₂.cons ?_ ih
              unfold applyNode
              cases chosenTiming units (kn.2.name, kn.2.version) <;>
                exact ⟨rfl, rfl, rfl, rfl, rfl, rfl⟩
          exact key g.nodes


/-! ## Witness data for the reconciliation claims -/

/-- An untimed node, as the Graph Builder constructs them. -/
def freshNode (id name version : String) : CrateNode :=
  { id := id, name := name, version := version, is_workspace_member := true,
    duration_ms := none, start_ms := none, fresh := false, features := [] }

def pNode : CrateNode := freshNode "p" "p" "1.0"

def qNode : CrateNode := freshNode "q" "q" "1.0"

def timingGraph : BuildGraph :=
  { nodes := [("p", pNode), ("q", qNode)], edges := [], roots := ["p", "q"],
    critical_path := [] }

/-- The report rows of spec §8: p has a lib row (2.0 s) and a build-script
row (0.5 s); q has only a build-script row (0.3 s). -/
def exampleUnits : List UnitTiming :=
  [⟨"p", "1.0", "lib", 0, 2⟩, ⟨"p", "1.0", "build script", 0, 1 / 2⟩,
   ⟨"q", "1.0", "build script", 0, 3 / 10⟩]


/-- Witness for C3 at the spec §8 rows: p gets the non-build-script
aggregate (2000 ms, not 2500), q falls back to the all-units aggregate
(300 ms). -/
theorem c3_reconciliation_aggregates_witness :
    (("p", pNode) ∈ timingGraph.nodes) ∧
    (unitsFor (nonBS exampleUnits) (pNode.name, pNode.version) ≠ []) ∧
    (("p", { pNode with start_ms := some 0, duration_ms := some 2000, fresh := false })
        ∈ (applyUnitTimings exampleUnits timingGraph).nodes) ∧
    (("q", qNode) ∈ timingGraph.nodes) ∧
    (unitsFor (nonBS exampleUnits) (qNode.name, qNode.version) = []) ∧
    (unitsFor exampleUnits (qNode.name, qNode.version) ≠ []) ∧
    (("q", { qNode with start_ms := some 0, duration_ms := some 300, fresh := false })
        ∈ (applyUnitTimings exampleUnits timingGraph).nodes) := by
  have hp : ("p", pNode) ∈ timingGraph.nodes := by
    show ("p", pNode) ∈ [("p", pNode), ("q", qNode)]
    exact List.mem_cons_self _ _
  have hq : ("q", qNode) ∈ timingGraph.nodes := by
    show ("q", qNode) ∈ [("p", pNode), ("q", qNode)]
    exact List.mem_cons_of_mem _ (List.mem_cons_self _ _)
  have hpe : unitsFor (nonBS exampleUnits) (pNode.name, pNode.version)
      = [⟨"p", "1.0", "lib", 0, 2⟩] := by
    with_unfolding_all rfl
  have hnep : unitsFor (nonBS exampleUnits) (pNode.name, pNode.version) ≠ [] := by
    rw [hpe]
    exact List.cons_ne_nil _ _
  have hnilq : unitsFor (nonBS exampleUnits) (qNode.name, qNode.version) = [] := by
    with_unfolding_all rfl
  have hqe : unitsFor exampleUnits (qNode.name, qNode.version)
      = [⟨"q", "1.0", "build script", 0, 3 / 10⟩] := by
    with_unfolding_all rfl
  have hneq : unitsFor exampleUnits (qNode.name, qNode.version) ≠ [] := by
    rw [hqe]
    exact List.cons_ne_nil _ _
  have h1 := (c3_reconciliation_aggregates exampleUnits timingGraph "p" pNode hp).1 hnep
  have h2 := (c3_reconciliation_aggregates exampleUnits timingGraph "q" qNode hq).2.1
    hnilq hneq
  refine ⟨hp, hnep, ?_, hq, hnilq, hneq, ?_⟩
  · with_unfolding_all exact h1
  · with_unfolding_all exact h2

def rNode : CrateNode := freshNode "r" "r" "1.0"

def sNode : CrateNode := freshNode "s" "s" "1.0"

def freshGraph : BuildGraph :=
  { nodes := [("r", rNode), ("s", sNode)], edges := [], roots := [],
    critical_path := [] }

/-- Report rows for the freshness-threshold example: r compiled for
0.0000001 s (cache-reused), s for 0.5 s. -/
def freshUnits : List UnitTiming :=
  [⟨"r", "1.0", "lib", 0, 1 / 10000000⟩, ⟨"s", "1.0", "lib", 0, 1 / 2⟩]

/-- Witness for C7: a 0.0000001-second duration yields `fresh = true`, a
0.5-second duration yields `fresh = false`. -/
theorem c7_fresh_iff_below_epsilon_witness :
    (("r", rNode) ∈ freshGraph.nodes) ∧
    chosenTiming freshUnits (rNode.name, rNode.version) = some (0, 1 / 10000000) ∧
    (("r", { rNode with start_ms := some 0, duration_ms := some (1 / 10000), fresh := true })
      ∈ (applyUnitTimings freshUnits freshGraph).nodes) ∧
    (("s", { sNode with start_ms := some 0, duration_ms := some 500, fresh := false })
      ∈ (applyUnitTimings freshUnits freshGraph).nodes) ∧
    ((1 : ℚ) / 10000000 < 1 / 1000) ∧ ¬ ((1 : ℚ) / 2 < 1 / 1000) := by
  have hr : ("r", rNode) ∈ freshGraph.nodes := by
    show ("r", rNode) ∈ [("r", rNode), ("s", sNode)]
    exact List.mem_cons_self _ _
  have hs : ("s", sNode) ∈ freshGraph.nodes := by
    show ("s", sNode) ∈ [("r", rNode), ("s", sNode)]
    exact List.mem_cons_of_mem _ (List.mem_cons_self _ _)
  have hcr : chosenTiming freshUnits (rNode.name, rNode.version)
      = some (0, 1 / 10000000) := by
    with_unfolding_all rfl
  have hcs : chosenTiming freshUnits (sNode.name, sNode.version)
      = some (0, 1 / 2) := by
    with_unfolding_all rfl
  have h1 := (c7_fresh_iff_below_epsilon freshUnits freshGraph "r" rNode _ hr hcr).1
  have h2 := (c7_fresh_iff_below_epsilon freshUnits freshGraph "s" sNode _ hs hcs).1
  refine ⟨hr, hcr, ?_, ?_, ?_, ?_⟩
  · with_unfolding_all exact h1
  · with_unfolding_all exact h2
  · exact of_decide_eq_true (by with_unfolding_all rfl)
  · exact of_decide_eq_false (by with_unfolding_all rfl)

def timedP : CrateNode :=
  { id := "p", name := "p", version := "1.0", is_workspace_member := true,
    duration_ms := some 2000, start_ms := some 0, fresh := false, features := [] }

def timedQ : CrateNode :=
  { id := "q", name := "q", version := "1.0", is_workspace_member := true,
    duration_ms := some 300, start_ms := some 0, fresh := false, features := [] }

/-- The graph produced by `apply_timings` on `timingGraph` with the §8 rows. -/
def timedGraphResult : BuildGraph :=
  { nodes := [("p", timedP), ("q", timedQ)], edges := [], roots := ["p", "q"],
    critical_path := ["p"] }

/-- Witness for C10: a successful `apply_timings` run on the concrete
example leaves edges, roots and node keys unchanged. -/
theorem c10_frame_effect_witness :
    apply_timings_model (fun _ => some exampleUnits)
        "const UNIT_DATA = [];".toList 5 timingGraph
      = some (timedGraphResult, Except.ok ()) ∧
    timedGraphResult.edges = timingGraph.edges ∧
    timedGraphResult.roots = timingGraph.roots ∧
    timedGraphResult.nodes.map (fun kn => kn.1)
      = timingGraph.nodes.map (fun kn => kn.1) := by
  have h : apply_timings_model (fun _ => some exampleUnits)
      "const UNIT_DATA = [];".toList 5 timingGraph
      = some (timedGraphResult, Except.ok ()) := by
    with_unfolding_all rfl
  have h2 := c10_frame_effect (fun _ => some exampleUnits)
    "const UNIT_DATA = [];".toList 5 timingGraph timedGraphResult h
  exact ⟨h, h2.1, h2.2.1, h2.2.2.1⟩


/-! ## C4: report-parsing error behaviour -/

/-- C4:  A report for which the embedded block cannot be parsed makes
`apply_timings` return an error with the graph untouched (no partial
population): a missing `UNIT_DATA` marker yields `markerNotFound`, a missing
closing delimiter yields `endNotFound`, a JSON decode failure yields
`jsonError`, and the marker-missing error is distinguishable from both
malformed-data errors.  The model is a total function, so none of these
inputs can panic. -/
theorem c4_parse_error_handling (decode : List Char → Option (List UnitTiming))
    (html : List Char) (fuel : Nat) (g : BuildGraph) :
    (∀ e, parse_unit_data decode html = .error e →
      apply_timings_model decode html fuel g = some (g, .error e)) ∧
    (findSub html start_marker = none →
      parse_unit_data decode html = .error .markerNotFound) ∧
    (∀ i, findSub html start_marker = some i →
      findSub (html.drop (i + start_marker.length)) "];".toList = none →
      parse_unit_data decode html = .error .endNotFound) ∧
    (∀ i j, findSub html start_marker = some i →
      findSub (html.drop (i + start_marker.length)) "];".toList = some j →
      decode ((html.drop (i + start_marker.length)).take (j + 1)) = none →
      parse_unit_data decode html = .error .jsonError) ∧
    (ParseErr.markerNotFound ≠ ParseErr.endNotFound) ∧
    (ParseErr.markerNotFound ≠ ParseErr.jsonError) ∧
    (ParseErr.endNotFound ≠ ParseErr.jsonError) := by
  refine ⟨?_, ?_, ?_, ?_, by decide, by decide, by decide⟩
  · intro e he
    unfold apply_timings_model
    rw [he]
  · intro h
    unfold parse_unit_data
    rw [h]
  · intro i h1 h2
    simp only [parse_unit_data, h1, h2]
  · intro i j h1 h2 h3
    simp only [parse_unit_data, h1, h2, h3]

/-- Witness for C4: a document with no `UNIT_DATA` marker produces the
`markerNotFound` error and the untouched graph. -/
theorem c4_parse_error_handling_witness :
    findSub "this report has no unit data".toList start_marker = none ∧
    apply_timings_model (fun _ => none) "this report has no unit data".toList 0 timingGraph
      = some (timingGraph, .error .markerNotFound) := by
  have h1 : findSub "this report has no unit data".toList start_marker = none := by
    decide
  have hp := (c4_parse_error_handling (fun _ => none)
    "this report has no unit data".toList 0 timingGraph).2.1 h1
  exact ⟨h1, (c4_parse_error_handling (fun _ => none)
    "this report has no unit data".toList 0 timingGraph).1 _ hp⟩


/-! ## Graph-builder lemmas (C5, C6) -/

theorem lookup_map_replace_isSome :
    ∀ (ns : List (CrateId × CrateNode)) (k : CrateId) (v : CrateNode),
      ns.any (fun p => p.1 == k) = true →
      (((ns.map (fun p => if p.1 == k then (k, v) else p)).lookup k).isSome) = true := by
  intro ns
  induction ns with
  | nil => intro k v h; simp at h
  | cons p rest ih =>
    intro k v h
    obtain ⟨p1, p2⟩ := p
    simp only [List.map_cons]
    cases hpk : (p1 == k) with
    | true =>
      rw [if_pos (by simp [hpk])]
      rw [lookup_cons_self]
      rfl
    | false =>
      rw [if_neg (by simp [hpk])]
      have hk1 : k ≠ p1 := by
        intro he
        rw [he] at hpk
        simp at hpk
      rw [lookup_cons_ne _ _ _ _ hk1]
      apply ih
      simp only [List.any_cons, hpk, Bool.false_or] at h
      exact h

theorem lookup_append_right_isSome :
    ∀ (ns : List (CrateId × CrateNode)) (k : CrateId) (v : CrateNode),
      (((ns ++ [(k, v)]).lookup k).isSome) = true := by
  intro ns
  induction ns with
  | nil =>
    intro k v
    rw [List.nil_append, lookup_cons_self]
    rfl
  | cons p rest ih =>
    intro k v
    obtain ⟨p1, p2⟩ := p
    rw [List.cons_append]
    by_cases hk : k = p1
    · subst hk
      rw [lookup_cons_self]
      rfl
    · rw [lookup_cons_ne _ _ _ _ hk]
      exact ih k v

theorem lookup_isSome_map_replace :
    ∀ (ns : List (CrateId × CrateNode)) (k : CrateId) (v : CrateNode) (k' : CrateId),
      ((ns.lookup k').isSome) = true →
      (((ns.map (fun p => if p.1 == k then (k, v) else p)).lookup k').isSome) = true := by
  intro ns
  induction ns with
  | nil => intro k v k' h; simp [List.lookup] at h
  | cons p rest ih =>
    intro k v k' h
    obtain ⟨p1, p2⟩ := p
    simp only [List.map_cons]
    by_cases hk : k' = p1
    · cases hpk : (p1 == k) with
      | true =>
        have hp1k : p1 = k := beq_iff_eq.mp hpk
        rw [if_pos rfl, hk, hp1k, lookup_cons_self]
        rfl
      | false =>
        rw [if_neg Bool.false_ne_true, hk, lookup_cons_self]
        rfl
    · rw [lookup_cons_ne _ _ _ _ hk] at h
      cases hpk : (p1 == k) with
      | true =>
        have hp1k : p1 = k := beq_iff_eq.mp hpk
        rw [if_pos rfl]
        by_cases hk2 : k' = k
        · rw [hk2, lookup_cons_self]; rfl
        · rw [lookup_cons_ne _ _ _ _ hk2]; exact ih k v k' h
      | false =>
        rw [if_neg Bool.false_ne_true]
        rw [lookup_cons_ne _ _ _ _ hk]
        exact ih k v k' h

theorem lookup_isSome_append_left :
    ∀ (ns l2 : List (CrateId × CrateNode)) (k' : CrateId),
      ((ns.lookup k').isSome) = true → (((ns ++ l2).lookup k').isSome) = true := by
  intro ns
  induction ns with
  | nil => intro l2 k' h; simp [List.lookup] at h
  | cons p rest ih =>
    intro l2 k' h
    obtain ⟨p1, p2⟩ := p
    rw [List.cons_append]
    by_cases hk : k' = p1
    · subst hk
      rw [lookup_cons_self]
      rfl
    · rw [lookup_cons_ne _ _ _ _ hk] at h
      rw [lookup_cons_ne _ _ _ _ hk]
      exact ih l2 k' h

theorem insertNode_lookup_self (ns : List (CrateId × CrateNode)) (k : CrateId)
    (v : CrateNode) : (((insertNode ns k v).lookup k).isSome) = true := by
  unfold insertNode
  split
  · exact lookup_map_replace_isSome _ _ _ (by assumption)
  · exact lookup_append_right_isSome _ _ _

theorem insertNode_lookup_mono {ns : List (CrateId × CrateNode)} {k : CrateId}
    {v : CrateNode} {k' : CrateId} (h : ((ns.lookup k').isSome) = true) :
    (((insertNode ns k v).lookup k').isSome) = true := by
  unfold insertNode
  split
  · exact lookup_isSome_map_replace _ _ _ _ h
  · exact lookup_isSome_append_left _ _ _ h

theorem insertNode_mem {ns : List (CrateId × CrateNode)} {k : CrateId}
    {v : CrateNode} {kn : CrateId × CrateNode} (h : kn ∈ insertNode ns k v) :
    kn ∈ ns ∨ kn = (k, v) := by
  unfold insertNode at h
  split at h
  · obtain ⟨p, hp, hf⟩ := List.mem_map.mp h
    split at hf
    · exact Or.inr hf.symm
    · exact Or.inl (hf ▸ hp)
  · rcases List.mem_append.mp h with h1 | h1
    · exact Or.inl h1
    · exact Or.inr (List.mem_singleton.mp h1)

theorem lgStep_nodes_mono (meta : Metadata) (inc : Bool)
    (acc : List (CrateId × CrateNode) × List DepEdge) (node : ResolveNode)
    (k : CrateId) (h : ((acc.1.lookup k).isSome) = true) :
    (((lgStep meta inc acc node).1.lookup k).isSome) = true := by
  unfold lgStep
  split
  · exact h
  · split
    · exact h
    · exact insertNode_lookup_mono h

theorem lgFold_nodes_mono (meta : Metadata) (inc : Bool) :
    ∀ (rnodes : List ResolveNode) (acc : List (CrateId × CrateNode) × List DepEdge)
      (k : CrateId), ((acc.1.lookup k).isSome) = true →
      (((rnodes.foldl (lgStep meta inc) acc).1.lookup k).isSome) = true := by
  intro rnodes
  induction rnodes with
  | nil => intro acc k h; exact h
  | cons rn rest ih =>
    intro acc k h
    exact ih _ k (lgStep_nodes_mono meta inc acc rn k h)

theorem lgFold_covers (meta : Metadata) (inc : Bool) :
    ∀ (rnodes : List ResolveNode) (acc : List (CrateId × CrateNode) × List DepEdge),
      ∀ rn ∈ rnodes,
      ((!inc && !(meta.workspace_members.contains rn.id)) = false) →
      ((pkgGet meta.packages rn.id).isSome = true) →
      (((rnodes.foldl (lgStep meta inc) acc).1.lookup rn.id).isSome) = true := by
  intro rnodes
  induction rnodes with
  | nil => intro acc rn h; exact absurd h (List.not_mem_nil rn)
  | cons r rest ih =>
    intro acc rn hmem hskip hpkg
    rcases List.mem_cons.mp hmem with rfl | hmem'
    · rw [List.foldl_cons]
      apply lgFold_nodes_mono
      obtain ⟨pkg, hpg⟩ := Option.isSome_iff_exists.mp hpkg
      unfold lgStep
      rw [hskip, if_neg Bool.false_ne_true, hpg]
      exact insertNode_lookup_self _ _ _
    · exact ih _ rn hmem' hskip hpkg

theorem lgStep_edges_sound (meta : Metadata) (inc : Bool)
    (acc : List (CrateId × CrateNode) × List DepEdge) (node : ResolveNode)
    (e : DepEdge) (he : e ∈ (lgStep meta inc acc node).2) :
    e ∈ acc.2 ∨
    ∃ dp ∈ node.deps,
      e = ⟨node.id, dp.pkg, dp.dep_kinds⟩ ∧
      (inc || meta.workspace_members.contains dp.pkg) = true ∧
      (!inc && !(meta.workspace_members.contains node.id)) = false ∧
      (pkgGet meta.packages node.id).isSome = true := by
  unfold lgStep at he
  split at he
  · exact Or.inl he
  case isFalse hskip =>
    cases hpg : pkgGet meta.packages node.id with
    | none => rw [hpg] at he; exact Or.inl he
    | some pkg =>
      rw [hpg] at he
      simp only at he
      rcases List.mem_append.mp he with h1 | h1
      · exact Or.inl h1
      · obtain ⟨dp, hdp, hsome⟩ := List.mem_filterMap.mp h1
        split at hsome
        case isTrue hcond =>
          refine Or.inr ⟨dp, hdp, ?_, hcond, ?_, by simp [hpg]⟩
          · exact (Option.some.inj hsome).symm
          · exact Bool.of_not_eq_true hskip
        case isFalse => exact absurd hsome (by simp)

theorem lgFold_edges_sound (meta : Metadata) (inc : Bool) :
    ∀ (rnodes : List ResolveNode) (acc : List (CrateId × CrateNode) × List DepEdge),
      ∀ e ∈ (rnodes.foldl (lgStep meta inc) acc).2,
        e ∈ acc.2 ∨
        ∃ rn ∈ rnodes, ∃ dp ∈ rn.deps,
          e = ⟨rn.id, dp.pkg, dp.dep_kinds⟩ ∧
          (inc || meta.workspace_members.contains dp.pkg) = true ∧
          (!inc && !(meta.workspace_members.contains rn.id)) = false ∧
          (pkgGet meta.packages rn.id).isSome = true := by
  intro rnodes
  induction rnodes with
  | nil => intro acc e he; exact Or.inl he
  | cons r rest ih =>
    intro acc e he
    rcases ih (lgStep meta inc acc r) e he with h1 | ⟨rn, hrn, rest2⟩
    · rcases lgStep_edges_sound meta inc acc r e h1 with h2 | ⟨dp, hdp, h3⟩
      · exact Or.inl h2
      · exact Or.inr ⟨r, List.mem_cons_self _ _, dp, hdp, h3⟩
    · exact Or.inr ⟨rn, List.mem_cons_of_mem _ hrn, rest2⟩

theorem lgStep_nodes_sound (meta : Metadata) (inc : Bool)
    (acc : List (CrateId × CrateNode) × List DepEdge) (node : ResolveNode)
    (kn : CrateId × CrateNode) (h : kn ∈ (lgStep meta inc acc node).1) :
    kn ∈ acc.1 ∨
    ∃ pkg, pkgGet meta.packages node.id = some pkg ∧
      (!inc && !(meta.workspace_members.contains node.id)) = false ∧
      kn = (node.id, builtNode node pkg (meta.workspace_members.contains node.id)) := by
  unfold lgStep at h
  split at h
  · exact Or.inl h
  case isFalse hskip =>
    cases hpg : pkgGet meta.packages node.id with
    | none => rw [hpg] at h; exact Or.inl h
    | some pkg =>
      rw [hpg] at h
      simp only at h
      rcases insertNode_mem h with h1 | h1
      · exact Or.inl h1
      · exact Or.inr ⟨pkg, rfl, Bool.of_not_eq_true hskip, h1⟩

theorem lgFold_nodes_sound (meta : Metadata) (inc : Bool) :
    ∀ (rnodes : List ResolveNode) (acc : List (CrateId × CrateNode) × List DepEdge),
      ∀ kn ∈ (rnodes.foldl (lgStep meta inc) acc).1,
        kn ∈ acc.1 ∨
        ∃ rn ∈ rnodes, ∃ pkg,
          pkgGet meta.packages rn.id = some pkg ∧
          (!inc && !(meta.workspace_members.contains rn.id)) = false ∧
          kn = (rn.id, builtNode rn pkg (meta.workspace_members.contains rn.id)) := by
  intro rnodes
  induction rnodes with
  | nil => intro acc kn h; exact Or.inl h
  | cons r rest ih =>
    intro acc kn h
    rcases ih (lgStep meta inc acc r) kn h with h1 | ⟨rn, hrn, rest2⟩
    · rcases lgStep_nodes_sound meta inc acc r kn h1 with h2 | ⟨pkg, h3⟩
      · exact Or.inl h2
      · exact Or.inr ⟨r, List.mem_cons_self _ _, pkg, h3⟩
    · exact Or.inr ⟨rn, List.mem_cons_of_mem _ hrn, rest2⟩


/-- Metadata exhibiting the C5 gap: resolve node `a` declares a dependency
on `b`, but `b` appears neither among the resolve nodes nor the packages. -/
def badMeta : Metadata :=
  { packages := [⟨"a", "a", "1.0"⟩],
    resolve := some [⟨"a", [⟨"b", ["Normal"]⟩], []⟩],
    workspace_members := ["a"] }

def badNodeA : CrateNode :=
  { id := "a", name := "a", version := "1.0", is_workspace_member := true,
    duration_ms := none, start_ms := none, fresh := false, features := [] }

/-- The graph the builder produces from `badMeta` with external deps
included: it carries the edge a→b although no node `b` was constructed. -/
def badGraph : BuildGraph :=
  { nodes := [("a", badNodeA)],
    edges := [⟨"a", "b", ["Normal"]⟩],
    roots := ["a"],
    critical_path := [] }

theorem bool_not_eq_false {b : Bool} (h : (!b) = false) : b = true := by
  cases b
  · simp at h
  · rfl

/-- C5 counterexample:  The builder checks only the include-flag and
workspace membership before pushing an edge — it never checks that the
dependency target was (or will be) constructed as a node, so metadata whose
dependency targets are absent from the resolve/package lists produces a
dangling edge rather than dropping it. -/
theorem c5_dangling_edge_counterexample :
    load_dependency_graph badMeta true = .ok badGraph ∧
    (⟨"a", "b", ["Normal"]⟩ : DepEdge) ∈ badGraph.edges ∧
    badGraph.nodes.lookup "b" = none := by
  refine ⟨by rfl, by decide, by rfl⟩

/-- C5 amended:  Provided the metadata is well-formed — every
dependency target of every resolve node is itself the id of a resolve node
and has a package entry, which `cargo metadata` guarantees — every edge of
the constructed graph has both endpoints present in `nodes`, for either
value of the include-external-deps flag.  The `from` endpoint needs no
well-formedness at all. -/
theorem c5_no_dangling_edges (meta : Metadata) (inc : Bool) (g : BuildGraph)
    (hwf : ∀ rn ∈ meta.resolve.getD [], ∀ dp ∈ rn.deps,
      (∃ rn2 ∈ meta.resolve.getD [], rn2.id = dp.pkg) ∧
      (pkgGet meta.packages dp.pkg).isSome = true)
    (h : load_dependency_graph meta inc = .ok g) :
    ∀ e ∈ g.edges,
      ((g.nodes.lookup e.«from»).isSome = true) ∧
      ((g.nodes.lookup e.«to»).isSome = true) := by
  unfold load_dependency_graph at h
  cases hres : meta.resolve with
  | none => rw [hres] at h; exact absurd h (by simp)
  | some rnodes =>
    rw [hres] at h
    simp only [Except.ok.injEq] at h
    subst h
    intro e he
    rcases lgFold_edges_sound meta inc rnodes ([], []) e he with
      habs | ⟨rn, hrn, dp, hdp, rfl, hcond, hskip, hpkg⟩
    · exact absurd habs (List.not_mem_nil e)
    obtain ⟨⟨rn2, hrn2, hid⟩, hpkg2⟩ := hwf rn (by rw [hres]; exact hrn) dp hdp
    rw [hres] at hrn2
    simp only [Option.getD_some] at hrn2
    constructor
    · exact lgFold_covers meta inc rnodes ([], []) rn hrn hskip hpkg
    · have hskip2 : (!inc && !(meta.workspace_members.contains rn2.id)) = false := by
        rw [hid]
        cases hi : inc with
        | true => rfl
        | false =>
          rw [hi] at hcond
          simp only [Bool.false_or] at hcond
          rw [hcond]
          rfl
      have hcov := lgFold_covers meta inc rnodes ([], []) rn2 hrn2 hskip2
        (by rw [hid]; exact hpkg2)
      rw [hid] at hcov
      exact hcov

/-- Witness for C5 (amended) at well-formed two-crate metadata. -/
def goodMeta : Metadata :=
  { packages := [⟨"a", "a", "1.0"⟩, ⟨"b", "b", "1.0"⟩],
    resolve := some [⟨"a", [⟨"b", ["Normal"]⟩], []⟩, ⟨"b", [], []⟩],
    workspace_members := ["a", "b"] }

def goodNodeB : CrateNode :=
  { id := "b", name := "b", version := "1.0", is_workspace_member := true,
    duration_ms := none, start_ms := none, fresh := false, features := [] }

def goodGraph : BuildGraph :=
  { nodes := [("a", badNodeA), ("b", goodNodeB)],
    edges := [⟨"a", "b", ["Normal"]⟩],
    roots := ["a", "b"],
    critical_path := [] }

theorem c5_no_dangling_edges_witness :
    load_dependency_graph goodMeta false = .ok goodGraph ∧
    ((⟨"a", "b", ["Normal"]⟩ : DepEdge) ∈ goodGraph.edges) ∧
    ((goodGraph.nodes.lookup "a").isSome = true) ∧
    ((goodGraph.nodes.lookup "b").isSome = true) := by
  have hwf : ∀ rn ∈ goodMeta.resolve.getD [], ∀ dp ∈ rn.deps,
      (∃ rn2 ∈ goodMeta.resolve.getD [], rn2.id = dp.pkg) ∧
      (pkgGet goodMeta.packages dp.pkg).isSome = true := by decide
  have h : load_dependency_graph goodMeta false = .ok goodGraph := by rfl
  have he : (⟨"a", "b", ["Normal"]⟩ : DepEdge) ∈ goodGraph.edges := by decide
  have := c5_no_dangling_edges goodMeta false goodGraph hwf h _ he
  exact ⟨h, he, this.1, this.2⟩

/-- C6:  With external dependencies excluded, every constructed node is
a workspace member (both by flag and by id membership) and both endpoints
of every edge are workspace-member ids — non-workspace resolve nodes are
skipped before any further processing. -/
theorem c6_exclude_external_workspace_only (meta : Metadata) (g : BuildGraph)
    (h : load_dependency_graph meta false = .ok g) :
    (∀ kn ∈ g.nodes, kn.2.is_workspace_member = true ∧
       meta.workspace_members.contains kn.1 = true) ∧
    (∀ e ∈ g.edges, meta.workspace_members.contains e.«from» = true ∧
       meta.workspace_members.contains e.«to» = true) := by
  unfold load_dependency_graph at h
  cases hres : meta.resolve with
  | none => rw [hres] at h; exact absurd h (by simp)
  | some rnodes =>
    rw [hres] at h
    simp only [Except.ok.injEq] at h
    subst h
    constructor
    · intro kn hkn
      rcases lgFold_nodes_sound meta false rnodes ([], []) kn hkn with
        habs | ⟨rn, hrn, pkg, hpg, hskip, rfl⟩
      · exact absurd habs (List.not_mem_nil kn)
      · simp only [Bool.not_false, Bool.true_and] at hskip
        have hws := bool_not_eq_false hskip
        exact ⟨by simp only [builtNode]; exact hws, hws⟩
    · intro e he
      rcases lgFold_edges_sound meta false rnodes ([], []) e he with
        habs | ⟨rn, hrn, dp, hdp, rfl, hcond, hskip, hpkg⟩
      · exact absurd habs (List.not_mem_nil e)
      · simp only [Bool.not_false, Bool.true_and] at hskip
        simp only [Bool.false_or] at hcond
        exact ⟨bool_not_eq_false hskip, hcond⟩

theorem c6_exclude_external_workspace_only_witness :
    load_dependency_graph goodMeta false = .ok goodGraph ∧
    (∀ kn ∈ goodGraph.nodes, kn.2.is_workspace_member = true) ∧
    (∀ e ∈ goodGraph.edges, goodMeta.workspace_members.contains e.«from» = true ∧
       goodMeta.workspace_members.contains e.«to» = true) := by
  have h : load_dependency_graph goodMeta false = .ok goodGraph := by rfl
  have hc := c6_exclude_external_workspace_only goodMeta goodGraph h
  exact ⟨h, fun kn hkn => (hc.1 kn hkn).1, hc.2⟩


/-! ## C9: diamond tie-break determinism -/

/-- C9:  On the diamond A→B, A→C, B→D, C→D with B and C tied in
accumulated cost (durations 10/20/20/5 ms), the critical path computed by
the solver is the same — `[D, B, A]` — for every iteration order of the
node map, so two runs on identical input always produce the identical
path. -/
theorem c9_diamond_tiebreak_deterministic (o1 o2 : List (CrateId × CrateNode))
    (h1 : o1.Perm diamondNodes) (h2 : o2.Perm diamondNodes) :
    (criticalPathDataF 10 (diamondGraph o1)).map (fun sp => sp.2)
      = (criticalPathDataF 10 (diamondGraph o2)).map (fun sp => sp.2) ∧
    (criticalPathDataF 10 (diamondGraph o1)).map (fun sp => sp.2)
      = some ["D", "B", "A"] := by
  have hall : (diamondNodes.permutations.all (fun o =>
      (criticalPathDataF 10 (diamondGraph o)).map (fun sp => sp.2)
        == some ["D", "B", "A"])) = true := by
    with_unfolding_all rfl
  have e1 := List.all_eq_true.mp hall o1 (List.mem_permutations.mpr h1)
  have e2 := List.all_eq_true.mp hall o2 (List.mem_permutations.mpr h2)
  exact ⟨(eq_of_beq e1).trans (eq_of_beq e2).symm, eq_of_beq e1⟩

/-- Witness for C9: the two "runs" with the diamond's node map in its
given order and in a reversed order agree. -/
theorem c9_diamond_tiebreak_deterministic_witness :
    diamondNodes.Perm diamondNodes ∧
    diamondNodes.reverse.Perm diamondNodes ∧
    (criticalPathDataF 10 (diamondGraph diamondNodes.reverse)).map (fun sp => sp.2)
      = (criticalPathDataF 10 (diamondGraph diamondNodes)).map (fun sp => sp.2) := by
  have h1 : diamondNodes.reverse.Perm diamondNodes := List.reverse_perm _
  exact ⟨List.Perm.refl _, h1,
    (c9_diamond_tiebreak_deterministic diamondNodes.reverse diamondNodes h1
      (List.Perm.refl _)).1⟩

end Goodtimes
